import Mathlib

/-!
Shallow embedding of the DJaly setlist-construction core
(`backend/utils/audio_math.py` and
`backend/domain/services/setlist_builder.py`) together with proofs of the
spec claims about it.

Numeric values (Python floats) are modelled as real numbers; the in-place
`pool.sort` side effect of `build_chain` is modelled by returning the final
contents of the pool alongside the result; `random.choice` over the top-10
slice is modelled by an index parameter reduced modulo the slice length.
-/

set_option maxHeartbeats 1000000

namespace DJaly

/-! ## Data model

A pool entry is the dict `{id, track, vector}` produced by the candidate
pool provider; of the ORM `Track` only the fields the core reads
(`bpm`, `key`, `energy`) are modelled.  `Vibe` keeps the only key of
`vibe_params` the builder consults (`"energy"`); absence of the key is
`none`. -/

structure Track where
  bpm : ℝ
  key : String
  energy : ℝ

structure Entry where
  id : Int
  track : Track
  vector : Option (List ℝ)

structure Vibe where
  energy : Option ℝ

/-- The weights dict accepted by `calculate_mixability_score`. -/
structure Weights where
  bpm : ℝ
  key : ℝ
  vector : ℝ

instance : Inhabited Track := ⟨⟨0, "", 0⟩⟩

instance : Inhabited Entry := ⟨⟨0, default, none⟩⟩

/-! ## `backend/utils/audio_math.py` -/

/-- The `CAMELOT_ADJACENCY` table (audio_math.py lines 6-31), as an
association list in source order. -/
def CAMELOT_ADJACENCY : List (String × List String) :=
  [ ("1A", ["1A", "1B", "2A", "12A"]),
    ("1B", ["1B", "1A", "2B", "12B"]),
    ("2A", ["2A", "2B", "3A", "1A"]),
    ("2B", ["2B", "2A", "3B", "1B"]),
    ("3A", ["3A", "3B", "4A", "2A"]),
    ("3B", ["3B", "3A", "4B", "2B"]),
    ("4A", ["4A", "4B", "5A", "3A"]),
    ("4B", ["4B", "4A", "5B", "3B"]),
    ("5A", ["5A", "5B", "6A", "4A"]),
    ("5B", ["5B", "5A", "6B", "4B"]),
    ("6A", ["6A", "6B", "7A", "5A"]),
    ("6B", ["6B", "6A", "7B", "5B"]),
    ("7A", ["7A", "7B", "8A", "6A"]),
    ("7B", ["7B", "7A", "8B", "6B"]),
    ("8A", ["8A", "8B", "9A", "7A"]),
    ("8B", ["8B", "8A", "9B", "7B"]),
    ("9A", ["9A", "9B", "10A", "8A"]),
    ("9B", ["9B", "9A", "10B", "8B"]),
    ("10A", ["10A", "10B", "11A", "9A"]),
    ("10B", ["10B", "10A", "11B", "9B"]),
    ("11A", ["11A", "11B", "12A", "10A"]),
    ("11B", ["11B", "11A", "12B", "10B"]),
    ("12A", ["12A", "12B", "1A", "11A"]),
    ("12B", ["12B", "12A", "1B", "11B"]) ]

/-- Lookup `CAMELOT_ADJACENCY.get(k, [])`. -/
def camelotLookup (k : String) : List String :=
  (((CAMELOT_ADJACENCY.find? (fun p => p.1 == k)).map Prod.snd)).getD []

/-- The `KEY_TO_CAMELOT` table (audio_math.py lines 33-46), in dict insertion order
(Python dicts preserve insertion order, which the substring-fallback loop of
`normalize_key` iterates in). -/
def KEY_TO_CAMELOT : List (String × String) :=
  [ ("C Major", "8B"), ("C Minor", "5A"),
    ("C# Major", "3B"), ("Db Major", "3B"), ("C# Minor", "12A"),
    ("D Major", "10B"), ("D Minor", "7A"),
    ("D# Major", "5B"), ("Eb Major", "5B"), ("D# Minor", "2A"), ("Eb Minor", "2A"),
    ("E Major", "12B"), ("E Minor", "9A"),
    ("F Major", "7B"), ("F Minor", "4A"),
    ("F# Major", "2B"), ("Gb Major", "2B"), ("F# Minor", "11A"),
    ("G Major", "9B"), ("G Minor", "6A"),
    ("G# Major", "4B"), ("Ab Major", "4B"), ("G# Minor", "1A"),
    ("A Major", "11B"), ("A Minor", "8A"),
    ("A# Major", "6B"), ("Bb Major", "6B"), ("A# Minor", "3A"), ("Bb Minor", "3A"),
    ("B Major", "1B"), ("B Minor", "10A") ]

/-- The regex `^\d{1,2}[AB]$` of audio_math.py line 54: one or two digits
followed by a single letter `A` or `B`, spanning the whole string. -/
def isCamelotPattern (s : String) : Bool :=
  match s.toList with
  | [d, l] => d.isDigit && (l == 'A' || l == 'B')
  | [d1, d2, l] => d1.isDigit && d2.isDigit && (l == 'A' || l == 'B')
  | _ => false

/-- Python's `str.strip()`: drop leading and trailing whitespace. -/
def pyStrip (s : String) : String :=
  ⟨((s.data.dropWhile Char.isWhitespace).reverse.dropWhile Char.isWhitespace).reverse⟩

/-- Python's `str.lower()` (ASCII case folding). -/
def pyLower (s : String) : String :=
  ⟨s.data.map Char.toLower⟩

/-- Does `needle` occur at the head of `hay`? (auxiliary for substring
containment). -/
def matchesAt : List Char → List Char → Bool
  | [], _ => true
  | _ :: _, [] => false
  | a :: as, b :: bs => a == b && matchesAt as bs

/-- Does `needle` occur anywhere inside `hay`? -/
def hasSubChars : List Char → List Char → Bool
  | n, [] => n.isEmpty
  | n, b :: bs => matchesAt n (b :: bs) || hasSubChars n bs

/-- Python's `needle in hay` on strings (substring containment). -/
def strContains (hay needle : String) : Bool :=
  hasSubChars needle.toList hay.toList

/-- Function `normalize_key` (audio_math.py lines 48-64).  `none` models a Python
`None` argument; the falsy test `if not key_str` also catches the empty
string.  The raw string is stripped before the Camelot-pattern test and the
table lookups. -/
def normalize_key : Option String → Option String
  | none => none
  | some raw =>
    if raw = "" then none
    else
      let s := pyStrip raw
      if isCamelotPattern s then some s
      else
        match KEY_TO_CAMELOT.find? (fun p => p.1 == s) with
        | some p => some p.2
        | none =>
          match KEY_TO_CAMELOT.find? (fun p => strContains (pyLower s) (pyLower p.1)) with
          | some p => some p.2
          | none => none

/-- The substitution `if target_bpm <= 0: target_bpm = 120` (audio_math.py
lines 80-81). -/
noncomputable def defaultBpm (x : ℝ) : ℝ :=
  if x ≤ 0 then 120 else x

/-- The half-time/double-time folding of the BPM ratio
(audio_math.py lines 84-85). -/
noncomputable def foldRatio (r : ℝ) : ℝ :=
  if r < 0.6 then r * 2 else if r > 1.8 then r / 2 else r

/-- The Gaussian `math.exp(-pow(r - 1, 2) / (2 * pow(0.08, 2)))`
(audio_math.py line 88), centred at 1 with sigma 0.08. -/
noncomputable def gaussAt (r : ℝ) : ℝ :=
  Real.exp (-((r - 1) ^ 2) / (2 * (0.08 : ℝ) ^ 2))

/-- The BPM sub-score of `calculate_mixability_score`
(audio_math.py lines 79-88): non-positive tempos default to 120, the ratio
is folded into the comparable range by doubling below 0.6 / halving above
1.8, then scored by a Gaussian centred at 1 with sigma 0.08. -/
noncomputable def bpmScore (target_bpm candidate_bpm : ℝ) : ℝ :=
  gaussAt (foldRatio (defaultBpm candidate_bpm / defaultBpm target_bpm))

/-- The key sub-score of `calculate_mixability_score`
(audio_math.py lines 90-103).  `normalize_key` never returns an empty
string, so the truthiness test `if norm_t and norm_c` is `Option.isSome` on
both results. -/
def keyScore (target_key candidate_key : Option String) : ℝ :=
  match normalize_key target_key, normalize_key candidate_key with
  | some norm_t, some norm_c =>
    if norm_t = norm_c then 1.0
    else if norm_c ∈ camelotLookup norm_t then 0.9
    else 0.1
  | _, _ => 0.5

/-- Function `calculate_mixability_score` (audio_math.py lines 66-109).  A `none`
weights argument selects the default `{bpm: 0.35, key: 0.25, vector: 0.4}`
(the Python `weights or {...}` idiom). -/
noncomputable def calculate_mixability_score (target_bpm : ℝ) (target_key : Option String)
    (candidate_bpm : ℝ) (candidate_key : Option String)
    (vector_similarity : ℝ := 0.0) (weights : Option Weights := none) : ℝ :=
  let w := weights.getD ⟨0.35, 0.25, 0.4⟩
  let bpm_score := bpmScore target_bpm candidate_bpm
  let key_score := keyScore target_key candidate_key
  let vec_score := max 0.0 (min 1.0 vector_similarity)
  bpm_score * w.bpm + key_score * w.key + vec_score * w.vector

/-! ## `backend/domain/services/setlist_builder.py` -/

/-- Cosine similarity as computed inline in `_calculate_transition_score`
(lines 137-142) and in `build_path`'s goal-similarity term (lines 105-110):
zero when either vector is `None`, and the dot product over the product of
norms guarded by the float-truthiness test `if nA and nB` (both norms
non-zero). -/
noncomputable def cosineSim : Option (List ℝ) → Option (List ℝ) → ℝ
  | some a, some b =>
    let dot := (List.zipWith (· * ·) a b).sum
    let nA := Real.sqrt ((a.map (fun x => x ^ 2)).sum)
    let nB := Real.sqrt ((b.map (fun x => x ^ 2)).sum)
    if nA ≠ 0 ∧ nB ≠ 0 then dot / (nA * nB) else 0
  | _, _ => 0

/-- Method `SetlistBuilder._calculate_transition_score` (lines 135-151): the shared
wrapper both builders score transitions with.  It always overrides the
scorer's weights with `{bpm: 0.4, key: 0.3, vector: 0.3}`. -/
noncomputable def calculate_transition_score (current candidate : Entry) : ℝ :=
  calculate_mixability_score current.track.bpm (some current.track.key)
    candidate.track.bpm (some candidate.track.key)
    (cosineSim current.vector candidate.vector)
    (some ⟨0.4, 0.3, 0.3⟩)

/-- The per-candidate total score of `build_chain`'s selection loop
(lines 51-57): transition score plus the energy-proximity bias
`-0.1 * |candidate.energy - target|` when the vibe has an energy target. -/
noncomputable def chainCandidateScore (current : Entry) (vibe : Vibe) (candidate : Entry) : ℝ :=
  let mix_score := calculate_transition_score current candidate
  let vibe_score : ℝ :=
    match vibe.energy with
    | some e => 0 - |candidate.track.energy - e| * 0.1
    | none => 0
  mix_score + vibe_score

/-- The `start_score` key function of `build_chain` (lines 30-34): proximity of a node's
energy to the vibe's target (0 when no target). -/
noncomputable def start_score (vibe : Vibe) (node : Entry) : ℝ :=
  match vibe.energy with
  | some e => 0 - |node.track.energy - e|
  | none => 0

/-- One iteration of the inner `for candidate in pool` loop shared by both
builders (lines 47-61 and 98-123): skip used ids, otherwise update the
`(best_next, best_score)` pair on a strictly greater score. -/
noncomputable def bestStep (score : Entry → ℝ) (used : Finset Int)
    (acc : Option Entry × ℝ) (c : Entry) : Option Entry × ℝ :=
  if c.id ∈ used then acc
  else if score c > acc.2 then (some c, score c) else acc

/-- The whole inner loop: fold `bestStep` over the pool starting from
`(None, -999.0)`. -/
noncomputable def selectBest (score : Entry → ℝ) (used : Finset Int)
    (pool : List Entry) : Option Entry × ℝ :=
  pool.foldl (bestStep score used) (none, -999)

/-- The loop `while len(chain) < target_length` of `build_chain`
(lines 42-67), with the number of remaining iterations made explicit as
`fuel` (the loop appends exactly one entry per iteration, so
`fuel = target_length - len(chain)` at loop entry reproduces the `while`
condition).  Returns the final chain together with the final used-ID set.
The `match` on `getLast?` is the read of `chain[-1]`; the chain is never
empty when the loop body runs. -/
noncomputable def chainLoop (pool : List Entry) (vibe : Vibe) :
    Nat → List Entry → Finset Int → List Entry × Finset Int
  | 0, chain, used => (chain, used)
  | fuel + 1, chain, used =>
    match chain.getLast? with
    | none => (chain, used)
    | some current =>
      match (selectBest (chainCandidateScore current vibe) used pool).1 with
      | some best => chainLoop pool vibe fuel (chain ++ [best]) (insert best.id used)
      | none => (chain, used)

/-- Result of one `build_chain` invocation: the constructed chain of
entries, the final used-ID set, and the final contents of the caller's pool
list (which `build_chain` may have sorted in place). -/
structure ChainResult where
  chain : List Entry
  used : Finset Int
  pool_after : List Entry

/-- Method `SetlistBuilder.build_chain` (lines 11-69) at the entry level.
`rand` models `random.choice` over the top-10 slice of the sorted pool as
an arbitrary index reduced modulo the slice length.  The in-place
`pool.sort(key=start_score, reverse=True)` (a stable descending sort) is
modelled by `mergeSort` with the reversed comparison; the selection loop
then iterates the sorted pool. -/
noncomputable def build_chain_run (pool seeds : List Entry) (target_length : Int)
    (vibe : Vibe) (rand : Nat) : ChainResult :=
  if pool.isEmpty && seeds.isEmpty then ⟨[], ∅, pool⟩
  else
    let chain0 := seeds
    let used0 := seeds.foldl (fun s e => insert e.id s) (∅ : Finset Int)
    if seeds.isEmpty then
      let sorted := pool.mergeSort (fun a b => decide (start_score vibe b ≤ start_score vibe a))
      let start_node := sorted.getD (rand % min 10 sorted.length) default
      let chain1 := [start_node]
      let used1 := insert start_node.id used0
      let fuel := (target_length - (chain1.length : Int)).toNat
      let r := chainLoop sorted vibe fuel chain1 used1
      ⟨r.1, r.2, sorted⟩
    else
      let fuel := (target_length - (chain0.length : Int)).toNat
      let r := chainLoop pool vibe fuel chain0 used0
      ⟨r.1, r.2, pool⟩

/-- The value `build_chain` returns: `[node["track"] for node in chain]`. -/
noncomputable def build_chain (pool seeds : List Entry) (target_length : Int)
    (vibe : Vibe) (rand : Nat) : List Track :=
  (build_chain_run pool seeds target_length vibe rand).chain.map Entry.track

/-- The per-candidate total score of `build_path`'s selection loop
(lines 98-119): weighted sum of the transition score from the current node,
the goal similarity towards the end node, and the proximity to the
interpolated bpm/energy targets. -/
noncomputable def pathCandidateScore (current end_node : Entry)
    (target_bpm target_energy : ℝ) (candidate : Entry) : ℝ :=
  let mix_score := calculate_transition_score current candidate
  let goal_sim := cosineSim candidate.vector end_node.vector
  let param_score :=
    (if candidate.track.bpm > 0 then 0 - |candidate.track.bpm - target_bpm| * 0.01 else 0)
    - |candidate.track.energy - target_energy|
  mix_score * 1.5 + goal_sim * 1.0 + param_score * 0.5

/-- The fraction `progress = (i + 1) / (intermediate_steps + 1)` (line 89). -/
noncomputable def pathProgress (m i : Nat) : ℝ := (i + 1) / (m + 1)

/-- Linear interpolation of the BPM target for slot `i` (line 92). -/
noncomputable def pathTargetBpm (start_node end_node : Entry) (m i : Nat) : ℝ :=
  start_node.track.bpm + (end_node.track.bpm - start_node.track.bpm) * pathProgress m i

/-- Linear interpolation of the energy target for slot `i` (line 93). -/
noncomputable def pathTargetEnergy (start_node end_node : Entry) (m i : Nat) : ℝ :=
  start_node.track.energy
    + (end_node.track.energy - start_node.track.energy) * pathProgress m i

/-- The `for i in range(intermediate_steps)` loop of `build_path`
(lines 88-130).  `m` is `intermediate_steps`; `fuel = m - i` makes the
remaining iteration count structural.  Returns the chain so far and the
final used-ID set. -/
noncomputable def pathLoop (pool : List Entry) (start_node end_node : Entry) (m : Nat) :
    Nat → Nat → List Entry → Finset Int → Entry → List Entry × Finset Int
  | _i, 0, chain, used, _current => (chain, used)
  | i, fuel + 1, chain, used, current =>
    match (selectBest (pathCandidateScore current end_node
        (pathTargetBpm start_node end_node m i)
        (pathTargetEnergy start_node end_node m i)) used pool).1 with
    | some best =>
      pathLoop pool start_node end_node m (i + 1) fuel (chain ++ [best])
        (insert best.id used) best
    | none => (chain, used)

/-- Method `SetlistBuilder.build_path` (lines 71-133) at the entry level: the chain
starts at `start_node`, both endpoint ids are reserved up front,
`max(0, steps - 2)` intermediate slots are filled greedily, and `end_node`
is appended unconditionally at the end. -/
noncomputable def build_path_entries (pool : List Entry) (start_node end_node : Entry)
    (steps : Int) : List Entry :=
  let used : Finset Int := {start_node.id, end_node.id}
  let intermediate_steps := (max 0 (steps - 2)).toNat
  let r := pathLoop pool start_node end_node intermediate_steps 0 intermediate_steps
    [start_node] used start_node
  r.1 ++ [end_node]

/-- The value `build_path` returns: `[node["track"] for node in chain]`. -/
noncomputable def build_path (pool : List Entry) (start_node end_node : Entry)
    (steps : Int) : List Track :=
  (build_path_entries pool start_node end_node steps).map Entry.track

/-- The pool entries the unseeded branch of `build_chain` works with: the
stable descending sort of the caller's pool by `start_score` (Python's
`list.sort(key=..., reverse=True)` is a stable sort). -/
noncomputable def sortedPool (pool : List Entry) (vibe : Vibe) : List Entry :=
  pool.mergeSort (fun a b => decide (start_score vibe b ≤ start_score vibe a))

/-- The start node picked in the unseeded branch of `build_chain`. -/
noncomputable def chainStartNode (pool : List Entry) (vibe : Vibe) (rand : Nat) : Entry :=
  (sortedPool pool vibe).getD (rand % min 10 (sortedPool pool vibe).length) default

/-! ## Definitions taken from the spec wording (for comparison with the
code) -/

/-- The Camelot position with wheel number `n` (1-12) and mode letter
`A`/`B`, as named by the spec. -/
def camelotName (n : Nat) (b : Bool) : String :=
  Nat.repr n ++ (if b then "A" else "B")

/-- The next wheel number, wrapping from 12 back to 1 (spec wording). -/
def wrapNext (n : Nat) : Nat := if n = 12 then 1 else n + 1

/-- The previous wheel number, wrapping from 1 back to 12 (spec wording). -/
def wrapPrev (n : Nat) : Nat := if n = 1 then 12 else n - 1

/-- The key-normalisation procedure exactly as claim C6 words it: the raw
input is tested and returned verbatim, with no whitespace stripping
anywhere. -/
def normalize_key_as_claimed : Option String → Option String
  | none => none
  | some s =>
    if s = "" then none
    else if isCamelotPattern s then some s
    else
      match KEY_TO_CAMELOT.find? (fun p => p.1 == s) with
      | some p => some p.2
      | none =>
        match KEY_TO_CAMELOT.find? (fun p => strContains (pyLower s) (pyLower p.1)) with
        | some p => some p.2
        | none => none

/-- Claim C6 amended: the same procedure applied to the whitespace-stripped
input (so Camelot-pattern input is returned in stripped form). -/
def normalize_key_as_amended : Option String → Option String
  | none => none
  | some s =>
    if s = "" then none
    else normalize_key_as_claimed (some (pyStrip s))

/-! ## Helper lemmas: bounds of the scoring functions -/

lemma gaussAt_pos (r : ℝ) : 0 < gaussAt r := Real.exp_pos _

lemma gaussAt_le_one (r : ℝ) : gaussAt r ≤ 1 := by
  have harg : -((r - 1) ^ 2) / (2 * (0.08 : ℝ) ^ 2) ≤ 0 := by
    apply div_nonpos_of_nonpos_of_nonneg
    · simpa using sq_nonneg (r - 1)
    · norm_num
  have := Real.exp_le_exp.mpr harg
  rwa [Real.exp_zero] at this

lemma bpmScore_pos (t c : ℝ) : 0 < bpmScore t c := gaussAt_pos _

lemma bpmScore_le_one (t c : ℝ) : bpmScore t c ≤ 1 := gaussAt_le_one _

lemma keyScore_bounds (tk ck : Option String) :
    0 ≤ keyScore tk ck ∧ keyScore tk ck ≤ 1 := by
  unfold keyScore
  rcases normalize_key tk with _ | t <;> rcases normalize_key ck with _ | c <;>
    simp only [] <;> norm_num
  split_ifs <;> norm_num

lemma clamp01_bounds (v : ℝ) : 0 ≤ max 0.0 (min 1.0 v) ∧ max 0.0 (min 1.0 v) ≤ 1 := by
  have h1 : (0.0 : ℝ) = 0 := by norm_num
  have h2 : (1.0 : ℝ) = 1 := by norm_num
  rw [h1, h2]
  exact ⟨le_max_left _ _, max_le (by norm_num) (min_le_left _ _)⟩

/-- General bounds for the weighted sum: with non-negative weights the score
lies between 0 and the sum of the weights. -/
lemma mixability_bounds (tb cb vs : ℝ) (tk ck : Option String) (w : Weights)
    (hb : 0 ≤ w.bpm) (hk : 0 ≤ w.key) (hv : 0 ≤ w.vector) :
    0 ≤ calculate_mixability_score tb tk cb ck vs (some w) ∧
    calculate_mixability_score tb tk cb ck vs (some w) ≤ w.bpm + w.key + w.vector := by
  unfold calculate_mixability_score
  simp only [Option.getD_some]
  obtain ⟨hk0, hk1⟩ := keyScore_bounds tk ck
  obtain ⟨hv0, hv1⟩ := clamp01_bounds vs
  have hb0 := (bpmScore_pos tb cb).le
  have hb1 := bpmScore_le_one tb cb
  constructor
  · positivity
  · nlinarith [mul_le_mul_of_nonneg_right hb1 hb, mul_le_mul_of_nonneg_right hk1 hk,
      mul_le_mul_of_nonneg_right hv1 hv]

/-- The `weights or default` idiom: a `none` weights argument behaves as the
default weight record. -/
lemma mixability_none_eq_default (tb cb vs : ℝ) (tk ck : Option String) :
    calculate_mixability_score tb tk cb ck vs none =
    calculate_mixability_score tb tk cb ck vs (some ⟨0.35, 0.25, 0.4⟩) := rfl

/-- The transition score both builders use is non-negative. -/
lemma transition_score_nonneg (current candidate : Entry) :
    0 ≤ calculate_transition_score current candidate := by
  unfold calculate_transition_score
  exact (mixability_bounds _ _ _ _ _ _ (by norm_num) (by norm_num) (by norm_num)).1

/-- The transition score both builders use is at most 1. -/
lemma transition_score_le_one (current candidate : Entry) :
    calculate_transition_score current candidate ≤ 1 := by
  unfold calculate_transition_score
  have := (mixability_bounds current.track.bpm candidate.track.bpm
    (cosineSim current.vector candidate.vector) (some current.track.key)
    (some candidate.track.key) ⟨0.4, 0.3, 0.3⟩ (by norm_num) (by norm_num) (by norm_num)).2
  calc calculate_mixability_score current.track.bpm (some current.track.key)
        candidate.track.bpm (some candidate.track.key)
        (cosineSim current.vector candidate.vector) (some ⟨0.4, 0.3, 0.3⟩)
      ≤ (0.4 : ℝ) + 0.3 + 0.3 := this
    _ = 1 := by norm_num

/-- Without an energy target the chain builder's candidate score reduces to
the transition score, hence is non-negative (in particular above the -999
sentinel). -/
lemma chainCandidateScore_of_no_energy (current candidate : Entry) (vibe : Vibe)
    (h : vibe.energy = none) :
    chainCandidateScore current vibe candidate =
      calculate_transition_score current candidate := by
  unfold chainCandidateScore
  rw [h]
  simp

/-! ## Helper lemmas: the shared selection loop -/

lemma bestStep_used {f : Entry → ℝ} {used : Finset Int} {acc : Option Entry × ℝ} {c : Entry}
    (h : c.id ∈ used) : bestStep f used acc c = acc := by
  unfold bestStep; rw [if_pos h]

lemma bestStep_gt {f : Entry → ℝ} {used : Finset Int} {acc : Option Entry × ℝ} {c : Entry}
    (h1 : c.id ∉ used) (h2 : f c > acc.2) : bestStep f used acc c = (some c, f c) := by
  unfold bestStep; rw [if_neg h1, if_pos h2]

lemma bestStep_ngt {f : Entry → ℝ} {used : Finset Int} {acc : Option Entry × ℝ} {c : Entry}
    (h1 : c.id ∉ used) (h2 : ¬f c > acc.2) : bestStep f used acc c = acc := by
  unfold bestStep; rw [if_neg h1, if_neg h2]

/-- Invariant of the fold: a `some` accumulator always records an unused
entry together with its exact score. -/
lemma foldl_bestStep_good (f : Entry → ℝ) (used : Finset Int) (l : List Entry) :
    ∀ acc : Option Entry × ℝ,
      (∀ c, acc.1 = some c → c.id ∉ used ∧ acc.2 = f c) →
      ∀ c, (l.foldl (bestStep f used) acc).1 = some c →
        c.id ∉ used ∧ (l.foldl (bestStep f used) acc).2 = f c := by
  induction l with
  | nil => intro acc h c hc; exact h c hc
  | cons x l ih =>
    intro acc h c hc
    rw [List.foldl_cons] at hc ⊢
    refine ih (bestStep f used acc x) ?_ c hc
    intro d hd
    by_cases h1 : x.id ∈ used
    · rw [bestStep_used h1] at hd ⊢; exact h d hd
    · by_cases h2 : f x > acc.2
      · rw [bestStep_gt h1 h2] at hd ⊢
        obtain rfl : x = d := by simpa using hd
        exact ⟨h1, rfl⟩
      · rw [bestStep_ngt h1 h2] at hd ⊢; exact h d hd

/-- Whatever the fold selects comes from the initial accumulator or from the
list itself. -/
lemma foldl_bestStep_mem (f : Entry → ℝ) (used : Finset Int) (l : List Entry) :
    ∀ (acc : Option Entry × ℝ) c, (l.foldl (bestStep f used) acc).1 = some c →
      acc.1 = some c ∨ c ∈ l := by
  induction l with
  | nil => intro acc c h; exact Or.inl h
  | cons x l ih =>
    intro acc c h
    rw [List.foldl_cons] at h
    rcases ih _ c h with h' | h'
    · by_cases h1 : x.id ∈ used
      · rw [bestStep_used h1] at h'; exact Or.inl h'
      · by_cases h2 : f x > acc.2
        · rw [bestStep_gt h1 h2] at h'
          obtain rfl : x = c := by simpa using h'
          exact Or.inr (List.mem_cons_self _ _)
        · rw [bestStep_ngt h1 h2] at h'; exact Or.inl h'
    · exact Or.inr (List.mem_cons_of_mem _ h')

/-- If no eligible element beats the running score, the fold is the
identity. -/
lemma foldl_bestStep_no_improve (f : Entry → ℝ) (used : Finset Int) (l : List Entry) :
    ∀ (o : Option Entry) (s : ℝ), (∀ d ∈ l, d.id ∉ used → f d ≤ s) →
      l.foldl (bestStep f used) (o, s) = (o, s) := by
  induction l with
  | nil => intro o s _; rfl
  | cons x l ih =>
    intro o s h
    rw [List.foldl_cons]
    by_cases h1 : x.id ∈ used
    · rw [bestStep_used h1]
      exact ih o s fun d hd => h d (List.mem_cons_of_mem _ hd)
    · have h2 : ¬f x > (o, s).2 := not_lt.mpr (h x (List.mem_cons_self _ _) h1)
      rw [bestStep_ngt h1 h2]
      exact ih o s fun d hd => h d (List.mem_cons_of_mem _ hd)

/-- If the running score and all eligible scores stay below a bound, so does
the fold's final score. -/
lemma foldl_bestStep_lt (f : Entry → ℝ) (used : Finset Int) (B : ℝ) (l : List Entry) :
    ∀ (o : Option Entry) (s : ℝ), s < B → (∀ d ∈ l, d.id ∉ used → f d < B) →
      (l.foldl (bestStep f used) (o, s)).2 < B := by
  induction l with
  | nil => intro o s hs _; exact hs
  | cons x l ih =>
    intro o s hs h
    rw [List.foldl_cons]
    by_cases h1 : x.id ∈ used
    · rw [bestStep_used h1]
      exact ih o s hs fun d hd => h d (List.mem_cons_of_mem _ hd)
    · by_cases h2 : f x > (o, s).2
      · rw [bestStep_gt h1 h2]
        exact ih (some x) (f x) (h x (List.mem_cons_self _ _) h1)
          fun d hd => h d (List.mem_cons_of_mem _ hd)
      · rw [bestStep_ngt h1 h2]
        exact ih o s hs fun d hd => h d (List.mem_cons_of_mem _ hd)

lemma bestStep_snd_ge_self {f : Entry → ℝ} {used : Finset Int} (acc : Option Entry × ℝ)
    {d : Entry} (hdu : d.id ∉ used) : f d ≤ (bestStep f used acc d).2 := by
  by_cases h2 : f d > acc.2
  · rw [bestStep_gt hdu h2]
  · rw [bestStep_ngt hdu h2]; exact not_lt.mp h2

/-- The fold's running score never decreases. -/
lemma foldl_bestStep_snd_mono (f : Entry → ℝ) (used : Finset Int) (l : List Entry) :
    ∀ acc : Option Entry × ℝ, acc.2 ≤ (l.foldl (bestStep f used) acc).2 := by
  induction l with
  | nil => intro acc; exact le_rfl
  | cons x l ih =>
    intro acc
    rw [List.foldl_cons]
    by_cases h1 : x.id ∈ used
    · rw [bestStep_used h1]; exact ih acc
    · by_cases h2 : f x > acc.2
      · rw [bestStep_gt h1 h2]
        have hx : f x ≤ (l.foldl (bestStep f used) (some x, f x)).2 := ih (some x, f x)
        exact le_trans (le_of_lt h2) hx
      · rw [bestStep_ngt h1 h2]; exact ih acc

/-- The fold's final score dominates every eligible element's score. -/
lemma foldl_bestStep_snd_ge (f : Entry → ℝ) (used : Finset Int) (l : List Entry) :
    ∀ (acc : Option Entry × ℝ) (d : Entry), d ∈ l → d.id ∉ used →
      f d ≤ (l.foldl (bestStep f used) acc).2 := by
  induction l with
  | nil => intro acc d hd; exact absurd hd (List.not_mem_nil d)
  | cons x l ih =>
    intro acc d hd hdu
    rw [List.foldl_cons]
    rcases List.mem_cons.mp hd with rfl | hd'
    · exact le_trans (bestStep_snd_ge_self acc hdu) (foldl_bestStep_snd_mono f used l _)
    · exact ih _ d hd' hdu

/-- A fold that selects nothing changed nothing. -/
lemma foldl_bestStep_fst_none (f : Entry → ℝ) (used : Finset Int) (l : List Entry) :
    ∀ acc : Option Entry × ℝ, (l.foldl (bestStep f used) acc).1 = none →
      l.foldl (bestStep f used) acc = acc := by
  induction l with
  | nil => intro acc _; rfl
  | cons x l ih =>
    intro acc h
    rw [List.foldl_cons] at h ⊢
    by_cases h1 : x.id ∈ used
    · rw [bestStep_used h1] at h ⊢; exact ih acc h
    · by_cases h2 : f x > acc.2
      · rw [bestStep_gt h1 h2] at h
        have := ih _ h
        rw [this] at h
        simp at h
      · rw [bestStep_ngt h1 h2] at h ⊢; exact ih acc h

/-- Soundness of the selection loop: a selected candidate is an unused pool
member and the recorded best score is its own score. -/
lemma selectBest_some_spec {f : Entry → ℝ} {used : Finset Int} {pool : List Entry} {c : Entry}
    (h : (selectBest f used pool).1 = some c) :
    c ∈ pool ∧ c.id ∉ used ∧ (selectBest f used pool).2 = f c := by
  have hmem := foldl_bestStep_mem f used pool (none, -999) c h
  have hgood := foldl_bestStep_good f used pool (none, -999) (by intro d hd; simp at hd) c h
  refine ⟨?_, hgood.1, hgood.2⟩
  rcases hmem with h' | h'
  · simp at h'
  · exact h'

/-- Completeness of the selection loop: if some unused pool member scores
above the -999 sentinel, a candidate is selected. -/
lemma selectBest_some_of_exists {f : Entry → ℝ} {used : Finset Int} {pool : List Entry}
    {d : Entry} (hd : d ∈ pool) (hdu : d.id ∉ used) (hgt : f d > -999) :
    ∃ c, (selectBest f used pool).1 = some c := by
  cases hc : (selectBest f used pool).1 with
  | some c => exact ⟨c, rfl⟩
  | none =>
    exfalso
    have hfix := foldl_bestStep_fst_none f used pool (none, -999) hc
    have hge := foldl_bestStep_snd_ge f used pool (none, -999) d hd hdu
    rw [hfix] at hge
    have hle : f d ≤ -999 := hge
    linarith

/-- Stable first-in-pool-order tie-break: the fold returns the first
eligible candidate attaining the maximal score, provided that maximum beats
the -999 sentinel. -/
lemma selectBest_eq_first_max (f : Entry → ℝ) (used : Finset Int) (l1 l2 : List Entry)
    (c : Entry) (hcu : c.id ∉ used) (hgt : f c > -999)
    (hmax : ∀ d ∈ l1 ++ c :: l2, d.id ∉ used → f d ≤ f c)
    (hfirst : ∀ d ∈ l1, d.id ∉ used → f d < f c) :
    selectBest f used (l1 ++ c :: l2) = (some c, f c) := by
  unfold selectBest
  rw [List.foldl_append, List.foldl_cons]
  have h1 : (l1.foldl (bestStep f used) (none, -999)).2 < f c :=
    foldl_bestStep_lt f used (f c) l1 none (-999) hgt hfirst
  rw [bestStep_gt hcu h1]
  apply foldl_bestStep_no_improve
  intro d hd hdu
  exact hmax d (List.mem_append_right _ (List.mem_cons_of_mem _ hd)) hdu

/-! ## Helper lemmas: the chain-building loop -/

lemma chainLoop_zero (pool : List Entry) (vibe : Vibe) (chain : List Entry)
    (used : Finset Int) : chainLoop pool vibe 0 chain used = (chain, used) := rfl

lemma chainLoop_succ_last_none {pool chain : List Entry} {vibe : Vibe} {fuel : Nat}
    {used : Finset Int} (hl : chain.getLast? = none) :
    chainLoop pool vibe (fuel + 1) chain used = (chain, used) := by
  rw [chainLoop, hl]

lemma chainLoop_succ_stop {pool chain : List Entry} {vibe : Vibe} {fuel : Nat}
    {used : Finset Int} {current : Entry} (hl : chain.getLast? = some current)
    (hb : (selectBest (chainCandidateScore current vibe) used pool).1 = none) :
    chainLoop pool vibe (fuel + 1) chain used = (chain, used) := by
  rw [chainLoop, hl]
  dsimp only
  rw [hb]

lemma chainLoop_succ_pick {pool chain : List Entry} {vibe : Vibe} {fuel : Nat}
    {used : Finset Int} {current best : Entry} (hl : chain.getLast? = some current)
    (hb : (selectBest (chainCandidateScore current vibe) used pool).1 = some best) :
    chainLoop pool vibe (fuel + 1) chain used =
      chainLoop pool vibe fuel (chain ++ [best]) (insert best.id used) := by
  rw [chainLoop, hl]
  dsimp only
  rw [hb]

lemma chainLoop_length_le (pool : List Entry) (vibe : Vibe) :
    ∀ (fuel : Nat) (chain : List Entry) (used : Finset Int),
      (chainLoop pool vibe fuel chain used).1.length ≤ chain.length + fuel := by
  intro fuel
  induction fuel with
  | zero => intro chain used; simp [chainLoop_zero]
  | succ fuel ih =>
    intro chain used
    cases hl : chain.getLast? with
    | none => rw [chainLoop_succ_last_none hl]; simp
    | some current =>
      cases hb : (selectBest (chainCandidateScore current vibe) used pool).1 with
      | none => rw [chainLoop_succ_stop hl hb]; simp
      | some best =>
        rw [chainLoop_succ_pick hl hb]
        have h := ih (chain ++ [best]) (insert best.id used)
        simp only [List.length_append, List.length_singleton] at h
        omega

lemma chainLoop_used_mono (pool : List Entry) (vibe : Vibe) :
    ∀ (fuel : Nat) (chain : List Entry) (used : Finset Int),
      used ⊆ (chainLoop pool vibe fuel chain used).2 := by
  intro fuel
  induction fuel with
  | zero => intro chain used; simp [chainLoop_zero]
  | succ fuel ih =>
    intro chain used
    cases hl : chain.getLast? with
    | none => rw [chainLoop_succ_last_none hl]
    | some current =>
      cases hb : (selectBest (chainCandidateScore current vibe) used pool).1 with
      | none => rw [chainLoop_succ_stop hl hb]
      | some best =>
        rw [chainLoop_succ_pick hl hb]
        exact subset_trans (Finset.subset_insert _ _)
          (ih (chain ++ [best]) (insert best.id used))

/-- The loop only ever appends: the initial chain is a prefix of the
result. -/
lemma chainLoop_append (pool : List Entry) (vibe : Vibe) :
    ∀ (fuel : Nat) (chain : List Entry) (used : Finset Int),
      ∃ t, (chainLoop pool vibe fuel chain used).1 = chain ++ t := by
  intro fuel
  induction fuel with
  | zero => intro chain used; exact ⟨[], by simp [chainLoop_zero]⟩
  | succ fuel ih =>
    intro chain used
    cases hl : chain.getLast? with
    | none => exact ⟨[], by rw [chainLoop_succ_last_none hl]; simp⟩
    | some current =>
      cases hb : (selectBest (chainCandidateScore current vibe) used pool).1 with
      | none => exact ⟨[], by rw [chainLoop_succ_stop hl hb]; simp⟩
      | some best =>
        obtain ⟨t, ht⟩ := ih (chain ++ [best]) (insert best.id used)
        refine ⟨best :: t, ?_⟩
        rw [chainLoop_succ_pick hl hb, ht]
        simp

/-- Invariant of the chain loop: if every chain id is marked used and the
chain ids are distinct, the result's ids stay distinct, and every result
entry comes from the initial chain or from the pool. -/
lemma chainLoop_inv (pool : List Entry) (vibe : Vibe) :
    ∀ (fuel : Nat) (chain : List Entry) (used : Finset Int),
      (∀ e ∈ chain, e.id ∈ used) → (chain.map Entry.id).Nodup →
      ((chainLoop pool vibe fuel chain used).1.map Entry.id).Nodup
      ∧ (∀ e ∈ (chainLoop pool vibe fuel chain used).1, e ∈ chain ∨ e ∈ pool) := by
  intro fuel
  induction fuel with
  | zero =>
    intro chain used _ h2
    refine ⟨by simpa [chainLoop_zero] using h2, ?_⟩
    intro e he
    rw [chainLoop_zero] at he
    exact Or.inl he
  | succ fuel ih =>
    intro chain used h1 h2
    cases hl : chain.getLast? with
    | none =>
      rw [chainLoop_succ_last_none hl]
      exact ⟨h2, fun e he => Or.inl he⟩
    | some current =>
      cases hb : (selectBest (chainCandidateScore current vibe) used pool).1 with
      | none =>
        rw [chainLoop_succ_stop hl hb]
        exact ⟨h2, fun e he => Or.inl he⟩
      | some best =>
        obtain ⟨hbp, hbu, _⟩ := selectBest_some_spec hb
        have hnotin : best.id ∉ chain.map Entry.id := by
          intro hmem
          obtain ⟨e, he, heq⟩ := List.mem_map.mp hmem
          exact hbu (heq ▸ h1 e he)
        have h1' : ∀ e ∈ chain ++ [best], e.id ∈ insert best.id used := by
          intro e he
          rcases List.mem_append.mp he with he' | he'
          · exact Finset.mem_insert_of_mem (h1 e he')
          · simp only [List.mem_singleton] at he'
            subst he'
            exact Finset.mem_insert_self _ _
        have h2' : ((chain ++ [best]).map Entry.id).Nodup := by
          rw [List.map_append]
          simp only [List.map_cons, List.map_nil]
          rw [List.nodup_append]
          exact ⟨h2, List.nodup_singleton _, by
            intro a ha hb'
            simp only [List.mem_singleton] at hb'
            exact hnotin (hb' ▸ ha)⟩
        rw [chainLoop_succ_pick hl hb]
        obtain ⟨ihn, ihp⟩ := ih (chain ++ [best]) (insert best.id used) h1' h2'
        refine ⟨ihn, ?_⟩
        intro e he
        rcases ihp e he with he' | he'
        · rcases List.mem_append.mp he' with h | h
          · exact Or.inl h
          · simp only [List.mem_singleton] at h
            exact Or.inr (h ▸ hbp)
        · exact Or.inr he'

/-- When the pool ids are distinct and disjoint from a reserved set `S`
already inside `used`, every candidate scores above the -999 sentinel, and
the requested total stays within capacity, the chain loop adds exactly
`fuel` entries (the selection never fails early). -/
lemma chainLoop_length_exact (pool : List Entry) (vibe : Vibe) (A : List Entry)
    (S : Finset Int)
    (hPA : ∀ e ∈ pool, e ∈ A)
    (Hs : ∀ cur ∈ A, ∀ c ∈ pool, chainCandidateScore cur vibe c > -999)
    (hPn : (pool.map Entry.id).Nodup)
    (hdisj : ∀ d ∈ pool, d.id ∉ S) :
    ∀ (fuel : Nat) (chain : List Entry) (used : Finset Int),
      chain ≠ [] →
      used = (chain.map Entry.id).toFinset →
      (chain.map Entry.id).Nodup →
      S ⊆ used →
      (∀ e ∈ chain, e ∈ A) →
      chain.length + fuel ≤ S.card + pool.length →
      ((chainLoop pool vibe fuel chain used).1).length = chain.length + fuel := by
  intro fuel
  induction fuel with
  | zero =>
    intro chain used _ _ _ _ _ _
    simp [chainLoop_zero]
  | succ fuel ih =>
    intro chain used hne hu hnd hS hA hlen
    obtain ⟨current, hl⟩ : ∃ c, chain.getLast? = some c := by
      cases hc : chain.getLast? with
      | none => exact absurd (List.getLast?_eq_none_iff.mp hc) hne
      | some c => exact ⟨c, rfl⟩
    have hexists : ∃ d ∈ pool, d.id ∉ used := by
      by_contra hcon
      push_neg at hcon
      have hsub : (pool.map Entry.id).toFinset ⊆ used := by
        intro x hx
        rw [List.mem_toFinset] at hx
        obtain ⟨d, hd, rfl⟩ := List.mem_map.mp hx
        exact hcon d hd
      have hdisj2 : Disjoint S (pool.map Entry.id).toFinset := by
        rw [Finset.disjoint_right]
        intro x hx
        rw [List.mem_toFinset] at hx
        obtain ⟨d, hd, rfl⟩ := List.mem_map.mp hx
        exact hdisj d hd
      have hcard : S.card + pool.length ≤ used.card := by
        have hunion : S ∪ (pool.map Entry.id).toFinset ⊆ used :=
          Finset.union_subset hS hsub
        have h1 := Finset.card_le_card hunion
        rw [Finset.card_union_of_disjoint hdisj2, List.toFinset_card_of_nodup hPn,
          List.length_map] at h1
        exact h1
      have hused_card : used.card = chain.length := by
        rw [hu, List.toFinset_card_of_nodup hnd, List.length_map]
      omega
    obtain ⟨d, hd, hdu⟩ := hexists
    have hcur : current ∈ A := hA current (List.mem_of_mem_getLast? (by simp [hl]))
    have hscore : chainCandidateScore current vibe d > -999 := Hs current hcur d hd
    obtain ⟨best, hb⟩ := selectBest_some_of_exists hd hdu hscore
    obtain ⟨hbp, hbu, _⟩ := selectBest_some_spec hb
    rw [chainLoop_succ_pick hl hb]
    have hnotin : best.id ∉ chain.map Entry.id := fun hmem =>
      hbu (hu ▸ List.mem_toFinset.mpr hmem)
    have hu' : insert best.id used = ((chain ++ [best]).map Entry.id).toFinset := by
      rw [hu]
      ext x
      simp [or_comm]
    have hnd' : ((chain ++ [best]).map Entry.id).Nodup := by
      rw [List.map_append]
      simp only [List.map_cons, List.map_nil]
      rw [List.nodup_append]
      refine ⟨hnd, List.nodup_singleton _, ?_⟩
      intro a ha hb'
      simp only [List.mem_singleton] at hb'
      exact hnotin (hb' ▸ ha)
    have hA' : ∀ e ∈ chain ++ [best], e ∈ A := by
      intro e he
      rcases List.mem_append.mp he with h | h
      · exact hA e h
      · simp only [List.mem_singleton] at h
        exact h ▸ hPA best hbp
    have hlen' : (chain ++ [best]).length + fuel ≤ S.card + pool.length := by
      simp only [List.length_append, List.length_singleton]
      omega
    have r := ih (chain ++ [best]) (insert best.id used) (by simp) hu' hnd'
      (subset_trans hS (Finset.subset_insert _ _)) hA' hlen'
    rw [r]
    simp only [List.length_append, List.length_singleton]
    omega

/-! ## Helper lemmas: the path-building loop -/

lemma pathLoop_zero (pool : List Entry) (s e : Entry) (m i : Nat) (chain : List Entry)
    (used : Finset Int) (current : Entry) :
    pathLoop pool s e m i 0 chain used current = (chain, used) := rfl

lemma pathLoop_succ_stop {pool chain : List Entry} {s e current : Entry} {m i fuel : Nat}
    {used : Finset Int}
    (hb : (selectBest (pathCandidateScore current e (pathTargetBpm s e m i)
      (pathTargetEnergy s e m i)) used pool).1 = none) :
    pathLoop pool s e m i (fuel + 1) chain used current = (chain, used) := by
  rw [pathLoop, hb]

lemma pathLoop_succ_pick {pool chain : List Entry} {s e current best : Entry}
    {m i fuel : Nat} {used : Finset Int}
    (hb : (selectBest (pathCandidateScore current e (pathTargetBpm s e m i)
      (pathTargetEnergy s e m i)) used pool).1 = some best) :
    pathLoop pool s e m i (fuel + 1) chain used current =
      pathLoop pool s e m (i + 1) fuel (chain ++ [best]) (insert best.id used) best := by
  rw [pathLoop, hb]

lemma pathLoop_length_le (pool : List Entry) (s e : Entry) (m : Nat) :
    ∀ (fuel i : Nat) (chain : List Entry) (used : Finset Int) (current : Entry),
      (pathLoop pool s e m i fuel chain used current).1.length ≤ chain.length + fuel := by
  intro fuel
  induction fuel with
  | zero => intro i chain used current; simp [pathLoop_zero]
  | succ fuel ih =>
    intro i chain used current
    cases hb : (selectBest (pathCandidateScore current e (pathTargetBpm s e m i)
        (pathTargetEnergy s e m i)) used pool).1 with
    | none => rw [pathLoop_succ_stop hb]; simp
    | some best =>
      rw [pathLoop_succ_pick hb]
      have h := ih (i + 1) (chain ++ [best]) (insert best.id used) best
      simp only [List.length_append, List.length_singleton] at h
      omega

lemma pathLoop_used_mono (pool : List Entry) (s e : Entry) (m : Nat) :
    ∀ (fuel i : Nat) (chain : List Entry) (used : Finset Int) (current : Entry),
      used ⊆ (pathLoop pool s e m i fuel chain used current).2 := by
  intro fuel
  induction fuel with
  | zero => intro i chain used current; simp [pathLoop_zero]
  | succ fuel ih =>
    intro i chain used current
    cases hb : (selectBest (pathCandidateScore current e (pathTargetBpm s e m i)
        (pathTargetEnergy s e m i)) used pool).1 with
    | none => rw [pathLoop_succ_stop hb]
    | some best =>
      rw [pathLoop_succ_pick hb]
      exact subset_trans (Finset.subset_insert _ _)
        (ih (i + 1) (chain ++ [best]) (insert best.id used) best)

/-- The path loop only ever appends: the initial chain is a prefix of the
result. -/
lemma pathLoop_append (pool : List Entry) (s e : Entry) (m : Nat) :
    ∀ (fuel i : Nat) (chain : List Entry) (used : Finset Int) (current : Entry),
      ∃ t, (pathLoop pool s e m i fuel chain used current).1 = chain ++ t := by
  intro fuel
  induction fuel with
  | zero => intro i chain used current; exact ⟨[], by simp [pathLoop_zero]⟩
  | succ fuel ih =>
    intro i chain used current
    cases hb : (selectBest (pathCandidateScore current e (pathTargetBpm s e m i)
        (pathTargetEnergy s e m i)) used pool).1 with
    | none => exact ⟨[], by rw [pathLoop_succ_stop hb]; simp⟩
    | some best =>
      obtain ⟨t, ht⟩ := ih (i + 1) (chain ++ [best]) (insert best.id used) best
      refine ⟨best :: t, ?_⟩
      rw [pathLoop_succ_pick hb, ht]
      simp

/-- Invariant of the path loop: distinct ids, provenance, and avoidance of
the reserved end-node id. -/
lemma pathLoop_inv (pool : List Entry) (s e : Entry) (m : Nat) :
    ∀ (fuel i : Nat) (chain : List Entry) (used : Finset Int) (current : Entry),
      (∀ x ∈ chain, x.id ∈ used) → (chain.map Entry.id).Nodup →
      (∀ x ∈ chain, x.id ≠ e.id) → e.id ∈ used →
      ((pathLoop pool s e m i fuel chain used current).1.map Entry.id).Nodup
      ∧ (∀ x ∈ (pathLoop pool s e m i fuel chain used current).1, x ∈ chain ∨ x ∈ pool)
      ∧ (∀ x ∈ (pathLoop pool s e m i fuel chain used current).1, x.id ≠ e.id) := by
  intro fuel
  induction fuel with
  | zero =>
    intro i chain used current h1 h2 h3 _
    exact ⟨by simpa [pathLoop_zero] using h2,
      fun x hx => Or.inl (by simpa [pathLoop_zero] using hx),
      fun x hx => h3 x (by simpa [pathLoop_zero] using hx)⟩
  | succ fuel ih =>
    intro i chain used current h1 h2 h3 he
    cases hb : (selectBest (pathCandidateScore current e (pathTargetBpm s e m i)
        (pathTargetEnergy s e m i)) used pool).1 with
    | none =>
      rw [pathLoop_succ_stop hb]
      exact ⟨h2, fun x hx => Or.inl hx, h3⟩
    | some best =>
      obtain ⟨hbp, hbu, _⟩ := selectBest_some_spec hb
      rw [pathLoop_succ_pick hb]
      have hnotin : best.id ∉ chain.map Entry.id := by
        intro hmem
        obtain ⟨x, hx, hxeq⟩ := List.mem_map.mp hmem
        exact hbu (hxeq ▸ h1 x hx)
      have h1' : ∀ x ∈ chain ++ [best], x.id ∈ insert best.id used := by
        intro x hx
        rcases List.mem_append.mp hx with hx' | hx'
        · exact Finset.mem_insert_of_mem (h1 x hx')
        · simp only [List.mem_singleton] at hx'
          exact hx' ▸ Finset.mem_insert_self _ _
      have h2' : ((chain ++ [best]).map Entry.id).Nodup := by
        rw [List.map_append]
        simp only [List.map_cons, List.map_nil]
        rw [List.nodup_append]
        refine ⟨h2, List.nodup_singleton _, ?_⟩
        intro a ha hb'
        simp only [List.mem_singleton] at hb'
        exact hnotin (hb' ▸ ha)
      have h3' : ∀ x ∈ chain ++ [best], x.id ≠ e.id := by
        intro x hx
        rcases List.mem_append.mp hx with hx' | hx'
        · exact h3 x hx'
        · simp only [List.mem_singleton] at hx'
          subst hx'
          intro heq
          exact hbu (heq ▸ he)
      have he' : e.id ∈ insert best.id used := Finset.mem_insert_of_mem he
      obtain ⟨ihn, ihp, ihe⟩ := ih (i + 1) (chain ++ [best]) (insert best.id used) best
        h1' h2' h3' he'
      refine ⟨ihn, ?_, ihe⟩
      intro x hx
      rcases ihp x hx with hx' | hx'
      · rcases List.mem_append.mp hx' with h | h
        · exact Or.inl h
        · simp only [List.mem_singleton] at h
          exact Or.inr (h ▸ hbp)
      · exact Or.inr hx'

/-! ## Helper lemmas: unfolding `build_chain_run` branch by branch -/

/-- The seed loop's `used_ids` accumulation is the set of seed ids. -/
lemma foldl_insert_id_eq (l : List Entry) :
    ∀ s : Finset Int, l.foldl (fun s e => insert e.id s) s = s ∪ (l.map Entry.id).toFinset := by
  induction l with
  | nil => intro s; simp
  | cons x l ih =>
    intro s
    rw [List.foldl_cons, ih]
    ext a
    simp only [Finset.mem_union, Finset.mem_insert, List.mem_toFinset, List.map_cons,
      List.mem_cons]
    tauto

lemma build_chain_run_empty (target : Int) (vibe : Vibe) (rand : Nat) :
    build_chain_run [] [] target vibe rand = ⟨[], ∅, []⟩ := by
  unfold build_chain_run
  simp

lemma build_chain_run_seeded (pool seeds : List Entry) (target : Int) (vibe : Vibe)
    (rand : Nat) (h : seeds ≠ []) :
    build_chain_run pool seeds target vibe rand =
      ⟨(chainLoop pool vibe (target - (seeds.length : Int)).toNat seeds
          (seeds.map Entry.id).toFinset).1,
       (chainLoop pool vibe (target - (seeds.length : Int)).toNat seeds
          (seeds.map Entry.id).toFinset).2, pool⟩ := by
  have hs : seeds.isEmpty = false := by
    cases seeds with
    | nil => exact absurd rfl h
    | cons a l => rfl
  unfold build_chain_run
  rw [hs]
  simp only [Bool.and_false, Bool.false_eq_true, if_false, Bool.false_eq_true]
  rw [foldl_insert_id_eq]
  simp

lemma build_chain_run_unseeded (pool : List Entry) (target : Int) (vibe : Vibe)
    (rand : Nat) (h : pool ≠ []) :
    build_chain_run pool [] target vibe rand =
      ⟨(chainLoop (sortedPool pool vibe) vibe (target - 1).toNat
          [chainStartNode pool vibe rand] {(chainStartNode pool vibe rand).id}).1,
       (chainLoop (sortedPool pool vibe) vibe (target - 1).toNat
          [chainStartNode pool vibe rand] {(chainStartNode pool vibe rand).id}).2,
       sortedPool pool vibe⟩ := by
  have hp : pool.isEmpty = false := by
    cases pool with
    | nil => exact absurd rfl h
    | cons a l => rfl
  unfold build_chain_run
  rw [hp]
  simp only [Bool.false_and, Bool.false_eq_true, if_false, List.isEmpty_nil, if_true]
  rfl

/-! ## Helper lemmas: evaluating the scorer -/

lemma mixability_eval (tb cb vs : ℝ) (tk ck : Option String) (w : Weights) :
    calculate_mixability_score tb tk cb ck vs (some w) =
      bpmScore tb cb * w.bpm + keyScore tk ck * w.key
        + max 0.0 (min 1.0 vs) * w.vector := rfl

lemma keyScore_same {tk ck : Option String} {t : String}
    (h1 : normalize_key tk = some t) (h2 : normalize_key ck = some t) :
    keyScore tk ck = 1 := by
  unfold keyScore
  rw [h1, h2]
  dsimp only
  rw [if_pos rfl]
  norm_num

lemma keyScore_adjacent {tk ck : Option String} {t c : String}
    (h1 : normalize_key tk = some t) (h2 : normalize_key ck = some c)
    (hne : t ≠ c) (hadj : c ∈ camelotLookup t) :
    keyScore tk ck = 0.9 := by
  unfold keyScore
  rw [h1, h2]
  dsimp only
  rw [if_neg hne, if_pos hadj]

lemma keyScore_unrelated {tk ck : Option String} {t c : String}
    (h1 : normalize_key tk = some t) (h2 : normalize_key ck = some c)
    (hne : t ≠ c) (hadj : c ∉ camelotLookup t) :
    keyScore tk ck = 0.1 := by
  unfold keyScore
  rw [h1, h2]
  dsimp only
  rw [if_neg hne, if_neg hadj]

lemma keyScore_unknown_left {tk : Option String} (ck : Option String)
    (h : normalize_key tk = none) : keyScore tk ck = 0.5 := by
  unfold keyScore
  rw [h]

lemma keyScore_unknown_right (tk : Option String) {ck : Option String}
    (h : normalize_key ck = none) : keyScore tk ck = 0.5 := by
  unfold keyScore
  rw [h]
  cases normalize_key tk <;> rfl

lemma defaultBpm_of_pos {x : ℝ} (h : 0 < x) : defaultBpm x = x := by
  unfold defaultBpm
  rw [if_neg (not_le.mpr h)]

lemma defaultBpm_of_nonpos {x : ℝ} (h : x ≤ 0) : defaultBpm x = 120 := by
  unfold defaultBpm
  rw [if_pos h]

lemma foldRatio_mid {r : ℝ} (h1 : ¬r < 0.6) (h2 : ¬r > 1.8) : foldRatio r = r := by
  unfold foldRatio
  rw [if_neg h1, if_neg h2]

lemma foldRatio_low {r : ℝ} (h : r < 0.6) : foldRatio r = r * 2 := by
  unfold foldRatio
  rw [if_pos h]

lemma foldRatio_high {r : ℝ} (h1 : ¬r < 0.6) (h2 : r > 1.8) : foldRatio r = r / 2 := by
  unfold foldRatio
  rw [if_neg h1, if_pos h2]

lemma gaussAt_one : gaussAt 1 = 1 := by
  unfold gaussAt
  norm_num

lemma bpmScore_same {x : ℝ} (h : 0 < x) : bpmScore x x = 1 := by
  unfold bpmScore
  rw [defaultBpm_of_pos h, div_self (ne_of_gt h)]
  rw [foldRatio_mid (by norm_num) (by norm_num)]
  exact gaussAt_one

lemma bpmScore_subst_left {tb : ℝ} (cb : ℝ) (h : tb ≤ 0) :
    bpmScore tb cb = bpmScore 120 cb := by
  unfold bpmScore
  rw [defaultBpm_of_nonpos h, defaultBpm_of_pos (by norm_num : (0:ℝ) < 120)]

lemma bpmScore_subst_right (tb : ℝ) {cb : ℝ} (h : cb ≤ 0) :
    bpmScore tb cb = bpmScore tb 120 := by
  unfold bpmScore
  rw [defaultBpm_of_nonpos h, defaultBpm_of_pos (by norm_num : (0:ℝ) < 120)]

lemma mixability_congr_bpm {tb tb' cb cb' : ℝ} (h : bpmScore tb cb = bpmScore tb' cb')
    (tk ck : Option String) (vs : ℝ) (w : Option Weights) :
    calculate_mixability_score tb tk cb ck vs w =
      calculate_mixability_score tb' tk cb' ck vs w := by
  cases w with
  | none =>
    rw [mixability_none_eq_default, mixability_none_eq_default,
      mixability_eval, mixability_eval, h]
  | some w => rw [mixability_eval, mixability_eval, h]

lemma cosineSim_none_left (v : Option (List ℝ)) : cosineSim none v = 0 := by
  cases v <;> rfl

lemma cosineSim_none_right (v : Option (List ℝ)) : cosineSim v none = 0 := by
  cases v <;> rfl

/-! ## Claim theorems -/

/-- C4: `calculate_mixability_score` is total over its numeric domain (in
this embedding it is a pure function, hence deterministic and never
raising): non-positive tempos are substituted by 120 on either side,
unknown keys yield the neutral 0.5 key sub-score, the vector similarity is
clamped to [0,1] (clamping the input changes nothing), with the default
weights the result lies in [0,1], and
`score(120, "8B", 120, "8B", 1.0) = 1.0` exactly. -/
theorem claim_C4 : ∀ (tb cb vs : ℝ) (tk ck : Option String),
    (0 ≤ calculate_mixability_score tb tk cb ck vs none
      ∧ calculate_mixability_score tb tk cb ck vs none ≤ 1)
    ∧ (tb ≤ 0 → ∀ w, calculate_mixability_score tb tk cb ck vs w
        = calculate_mixability_score 120 tk cb ck vs w)
    ∧ (cb ≤ 0 → ∀ w, calculate_mixability_score tb tk cb ck vs w
        = calculate_mixability_score tb tk 120 ck vs w)
    ∧ (normalize_key tk = none → keyScore tk ck = 0.5)
    ∧ (normalize_key ck = none → keyScore tk ck = 0.5)
    ∧ (∀ w, calculate_mixability_score tb tk cb ck vs w
        = calculate_mixability_score tb tk cb ck (max 0.0 (min 1.0 vs)) w)
    ∧ calculate_mixability_score 120 (some "8B") 120 (some "8B") 1 none = 1 := by
  intro tb cb vs tk ck
  refine ⟨?_, ?_, ?_, keyScore_unknown_left ck, keyScore_unknown_right tk, ?_, ?_⟩
  · have h := mixability_bounds tb cb vs tk ck ⟨0.35, 0.25, 0.4⟩
      (by norm_num) (by norm_num) (by norm_num)
    rw [mixability_none_eq_default]
    exact ⟨h.1, le_trans h.2 (by norm_num : (0.35 : ℝ) + 0.25 + 0.4 ≤ 1)⟩
  · intro h w
    exact mixability_congr_bpm (bpmScore_subst_left cb h) tk ck vs w
  · intro h w
    exact mixability_congr_bpm (bpmScore_subst_right tb h) tk ck vs w
  · intro w
    have hc : max 0.0 (min 1.0 (max 0.0 (min 1.0 vs))) = max 0.0 (min 1.0 vs) := by
      have h1 : (0.0 : ℝ) = 0 := by norm_num
      have h2 : (1.0 : ℝ) = 1 := by norm_num
      rw [h1, h2]
      have hle : max 0 (min 1 vs) ≤ 1 := max_le (by norm_num) (min_le_left _ _)
      have hge : (0 : ℝ) ≤ max 0 (min 1 vs) := le_max_left _ _
      rw [min_eq_right hle, max_eq_right hge]
    cases w with
    | none =>
      rw [mixability_none_eq_default, mixability_none_eq_default,
        mixability_eval, mixability_eval, hc]
    | some w => rw [mixability_eval, mixability_eval, hc]
  · rw [mixability_none_eq_default, mixability_eval]
    have hk : keyScore (some "8B") (some "8B") = 1 :=
      keyScore_same (show normalize_key (some "8B") = some "8B" by decide)
        (show normalize_key (some "8B") = some "8B" by decide)
    have hb : bpmScore 120 120 = 1 := bpmScore_same (by norm_num)
    rw [hk, hb]
    norm_num

/-- C4 witness: the theorem applied at tb = -5 (non-positive), an
unrecognisable key, an out-of-range similarity and the quoted exact
evaluation. -/
theorem claim_C4_witness :
    calculate_mixability_score (-5) (some "zzz") 0 (some "8B") 2 none
      = calculate_mixability_score 120 (some "zzz") 0 (some "8B") 2 none
    ∧ keyScore (some "zzz") (some "8B") = 0.5
    ∧ calculate_mixability_score 120 (some "8B") 120 (some "8B") 1 none = 1 := by
  obtain ⟨_hb, hsub, _hsubc, hkl, _hkr, _hclamp, hexact⟩ :=
    claim_C4 (-5) 0 2 (some "zzz") (some "8B")
  exact ⟨hsub (by norm_num) none, hkl (by decide), hexact⟩

/-- C5: the static adjacency table realises, for each of the 24 Camelot
positions, exactly the set {itself, opposite letter at the same number,
next number same letter, previous number same letter} with wrap-around
between 1 and 12; and the key sub-score is 1.0 for identical normalized
keys, 0.9 for a candidate in the target's adjacency list (when distinct),
0.1 for known-but-unrelated keys, 0.5 when either key is unknown. -/
theorem claim_C5 :
    (∀ k < 12, ∀ b : Bool,
      camelotLookup (camelotName (k + 1) b) =
        [camelotName (k + 1) b, camelotName (k + 1) (!b),
         camelotName (wrapNext (k + 1)) b, camelotName (wrapPrev (k + 1)) b])
    ∧ (∀ tk ck t c, normalize_key tk = some t → normalize_key ck = some c →
        (t = c → keyScore tk ck = 1)
        ∧ (t ≠ c → c ∈ camelotLookup t → keyScore tk ck = 0.9)
        ∧ (t ≠ c → c ∉ camelotLookup t → keyScore tk ck = 0.1))
    ∧ (∀ tk ck, normalize_key tk = none ∨ normalize_key ck = none →
        keyScore tk ck = 0.5) := by
  refine ⟨by decide, ?_, ?_⟩
  · intro tk ck t c h1 h2
    refine ⟨?_, ?_, ?_⟩
    · intro he
      subst he
      exact keyScore_same h1 h2
    · intro hne hadj
      exact keyScore_adjacent h1 h2 hne hadj
    · intro hne hadj
      exact keyScore_unrelated h1 h2 hne hadj
  · intro tk ck h
    rcases h with h | h
    · exact keyScore_unknown_left ck h
    · exact keyScore_unknown_right tk h

/-- C5 witness: the adjacency row of position 8B, an adjacent pair
("C Major" normalizes to 8B, 8A is its opposite-letter neighbor), an
unrelated pair, and an unknown key. -/
theorem claim_C5_witness :
    camelotLookup "8B" = ["8B", "8A", "9B", "7B"]
    ∧ keyScore (some "C Major") (some "8A") = 0.9
    ∧ keyScore (some "C Major") (some "D Major") = 0.1
    ∧ keyScore (some "???") (some "8A") = 0.5 := by
  obtain ⟨h1, h2, h3⟩ := claim_C5
  refine ⟨?_, ?_, ?_, ?_⟩
  · have h := h1 7 (by norm_num) false
    have e1 : camelotName (7 + 1) false = "8B" := by decide
    have e2 : camelotName (7 + 1) (!false) = "8A" := by decide
    have e3 : camelotName (wrapNext (7 + 1)) false = "9B" := by decide
    have e4 : camelotName (wrapPrev (7 + 1)) false = "7B" := by decide
    rw [e1, e2, e3, e4] at h
    exact h
  · exact (h2 (some "C Major") (some "8A") "8B" "8A" (by decide) (by decide)).2.1
      (by decide) (by decide)
  · exact (h2 (some "C Major") (some "D Major") "8B" "10B" (by decide) (by decide)).2.2
      (by decide) (by decide)
  · exact h3 (some "???") (some "8A") (Or.inl (by decide))

/-- C7: the tempo sub-score substitutes 120 for non-positive tempos,
doubles the candidate/target ratio below 0.6 and halves it above 1.8, and
scores the folded ratio with the Gaussian `gaussAt` centred at 1 with
sigma 0.08; consequently the tempo component at (70, 140) equals the one
at (70, 70) exactly. -/
theorem claim_C7 : ∀ t c : ℝ,
    (t ≤ 0 → bpmScore t c = bpmScore 120 c)
    ∧ (c ≤ 0 → bpmScore t c = bpmScore t 120)
    ∧ (0 < t → 0 < c → c / t < 0.6 → bpmScore t c = gaussAt (c / t * 2))
    ∧ (0 < t → 0 < c → c / t > 1.8 → bpmScore t c = gaussAt (c / t / 2))
    ∧ (0 < t → 0 < c → ¬c / t < 0.6 → ¬c / t > 1.8 → bpmScore t c = gaussAt (c / t))
    ∧ bpmScore 70 140 = bpmScore 70 70 := by
  intro t c
  refine ⟨fun h => bpmScore_subst_left c h, fun h => bpmScore_subst_right t h,
    ?_, ?_, ?_, ?_⟩
  · intro ht hc h
    unfold bpmScore
    rw [defaultBpm_of_pos ht, defaultBpm_of_pos hc, foldRatio_low h]
  · intro ht hc h
    unfold bpmScore
    rw [defaultBpm_of_pos ht, defaultBpm_of_pos hc,
      foldRatio_high (not_lt.mpr (by linarith)) h]
  · intro ht hc h1 h2
    unfold bpmScore
    rw [defaultBpm_of_pos ht, defaultBpm_of_pos hc, foldRatio_mid h1 h2]
  · have h140 : bpmScore 70 140 = gaussAt 1 := by
      unfold bpmScore
      rw [defaultBpm_of_pos (by norm_num : (0 : ℝ) < 70),
        defaultBpm_of_pos (by norm_num : (0 : ℝ) < 140)]
      have hr : (140 : ℝ) / 70 = 2 := by norm_num
      rw [hr, foldRatio_high (by norm_num) (by norm_num)]
      norm_num
    have h70 : bpmScore 70 70 = gaussAt 1 := by
      unfold bpmScore
      rw [defaultBpm_of_pos (by norm_num : (0 : ℝ) < 70),
        div_self (by norm_num : (70 : ℝ) ≠ 0),
        foldRatio_mid (by norm_num) (by norm_num)]
    rw [h140, h70]

/-- C7 witness: substitution at a negative tempo, folding of a half-time
ratio, and the quoted 70/140 equality. -/
theorem claim_C7_witness :
    bpmScore (-3) 140 = bpmScore 120 140
    ∧ bpmScore 100 50 = gaussAt (50 / 100 * 2)
    ∧ bpmScore 70 140 = bpmScore 70 70 := by
  obtain ⟨h1, _, _, _, _, h6⟩ := claim_C7 (-3) 140
  obtain ⟨_, _, h3, _, _, _⟩ := claim_C7 100 50
  exact ⟨h1 (by norm_num), h3 (by norm_num) (by norm_num) (by norm_num), h6⟩

/-- C6 (amended): `normalize_key` behaves exactly as the claim describes
once the input is stripped of leading/trailing whitespace first — i.e. it
equals the claimed procedure applied to the stripped input, returning the
stripped string (not the verbatim input) for Camelot-pattern input; and the
quoted instances hold: "C Major" normalizes to "8B", while the empty string
and None give None. -/
theorem claim_C6 :
    (∀ k, normalize_key k = normalize_key_as_amended k)
    ∧ normalize_key (some "C Major") = some "8B"
    ∧ normalize_key (some "") = none
    ∧ normalize_key none = none := by
  refine ⟨?_, by decide, by decide, rfl⟩
  intro k
  cases k with
  | none => rfl
  | some raw =>
    by_cases hraw : raw = ""
    · subst hraw
      decide
    · show normalize_key (some raw) = normalize_key_as_amended (some raw)
      unfold normalize_key normalize_key_as_amended
      dsimp only
      rw [if_neg hraw, if_neg hraw]
      by_cases hs : pyStrip raw = ""
      · simp only [hs]
        decide
      · unfold normalize_key_as_claimed
        dsimp only
        rw [if_neg hs]

/-- C6 counterexample: on the input " 8A" the code returns the stripped
string "8A", whereas the procedure exactly as the claim words it (verbatim
input, no stripping) returns None; the two functions differ there. -/
theorem claim_C6_counterexample :
    normalize_key (some " 8A") = some "8A"
    ∧ normalize_key_as_claimed (some " 8A") = none
    ∧ normalize_key (some " 8A") ≠ normalize_key_as_claimed (some " 8A") :=
  ⟨by decide, by decide, by decide⟩

/-- C8 (amended): both builders score transitions through
`_calculate_transition_score`, which always overrides the scorer's weights
to {bpm: 0.4, key: 0.3, vector: 0.3} — the chain builder does not use the
scorer's defaults; the chain builder's total adds the energy bias
`-0.1 * |candidate.energy - target|` exactly when an energy target
exists. -/
theorem claim_C8 : ∀ (current candidate : Entry) (vibe : Vibe),
    calculate_transition_score current candidate =
      calculate_mixability_score current.track.bpm (some current.track.key)
        candidate.track.bpm (some candidate.track.key)
        (cosineSim current.vector candidate.vector) (some ⟨0.4, 0.3, 0.3⟩)
    ∧ chainCandidateScore current vibe candidate =
        calculate_transition_score current candidate
          + (match vibe.energy with
             | some e => 0 - |candidate.track.energy - e| * 0.1
             | none => 0)
    ∧ (vibe.energy = none → chainCandidateScore current vibe candidate =
        calculate_transition_score current candidate) := by
  intro current candidate vibe
  exact ⟨rfl, rfl, fun h => chainCandidateScore_of_no_energy current candidate vibe h⟩

/-- C8 witness: with no energy target the chain builder's candidate score
is exactly the (0.4/0.3/0.3)-weighted transition score. -/
theorem claim_C8_witness :
    chainCandidateScore ⟨1, ⟨120, "1A", 0⟩, none⟩ ⟨none⟩ ⟨2, ⟨120, "1A", 0⟩, none⟩ =
      calculate_transition_score ⟨1, ⟨120, "1A", 0⟩, none⟩ ⟨2, ⟨120, "1A", 0⟩, none⟩ :=
  (claim_C8 ⟨1, ⟨120, "1A", 0⟩, none⟩ ⟨2, ⟨120, "1A", 0⟩, none⟩ ⟨none⟩).2.2 rfl

/-- C8 counterexample: at two tracks with equal tempo (120), identical key
"1A" and no vectors, the chain builder's candidate score is
0.4 + 0.3 = 0.7, while the scorer with its default weights gives
0.35 + 0.25 = 0.6 — so the chain builder does not evaluate candidates with
the default weights. -/
theorem claim_C8_counterexample :
    chainCandidateScore ⟨1, ⟨120, "1A", 0⟩, none⟩ ⟨none⟩ ⟨2, ⟨120, "1A", 0⟩, none⟩ = 0.7
    ∧ calculate_mixability_score 120 (some "1A") 120 (some "1A")
        (cosineSim none none) none = 0.6
    ∧ (0.7 : ℝ) ≠ 0.6 := by
  have hk : keyScore (some "1A") (some "1A") = 1 :=
    keyScore_same (show normalize_key (some "1A") = some "1A" by decide)
      (show normalize_key (some "1A") = some "1A" by decide)
  have hb : bpmScore 120 120 = 1 := bpmScore_same (by norm_num)
  have hcos : cosineSim (none : Option (List ℝ)) none = 0 := rfl
  refine ⟨?_, ?_, by norm_num⟩
  · rw [chainCandidateScore_of_no_energy _ _ _ rfl]
    unfold calculate_transition_score
    dsimp only
    rw [mixability_eval]
    dsimp only
    rw [hb, hk, hcos]
    norm_num
  · rw [mixability_none_eq_default, mixability_eval]
    dsimp only
    rw [hb, hk, hcos]
    norm_num

/-- C9 (amended): each iteration of the chain builder's loop and of the
path builder's intermediate-slot loop appends exactly the candidate chosen
by the shared selection fold `selectBest` over its score function; and that
fold selects the first (in pool iteration order) unused candidate attaining
the maximal total score, provided the maximum exceeds the initial -999
sentinel (if every unused candidate scores at or below -999, no candidate
is selected at all). -/
theorem claim_C9 :
    (∀ (f : Entry → ℝ) (used : Finset Int) (l1 l2 : List Entry) (c : Entry),
      c.id ∉ used → f c > -999 →
      (∀ d ∈ l1 ++ c :: l2, d.id ∉ used → f d ≤ f c) →
      (∀ d ∈ l1, d.id ∉ used → f d < f c) →
      selectBest f used (l1 ++ c :: l2) = (some c, f c))
    ∧ (∀ (pool chain : List Entry) (vibe : Vibe) (fuel : Nat) (used : Finset Int)
        (current best : Entry), chain.getLast? = some current →
        (selectBest (chainCandidateScore current vibe) used pool).1 = some best →
        chainLoop pool vibe (fuel + 1) chain used =
          chainLoop pool vibe fuel (chain ++ [best]) (insert best.id used))
    ∧ (∀ (pool chain : List Entry) (s e current best : Entry) (m i fuel : Nat)
        (used : Finset Int),
        (selectBest (pathCandidateScore current e (pathTargetBpm s e m i)
          (pathTargetEnergy s e m i)) used pool).1 = some best →
        pathLoop pool s e m i (fuel + 1) chain used current =
          pathLoop pool s e m (i + 1) fuel (chain ++ [best]) (insert best.id used) best) := by
  refine ⟨?_, ?_, ?_⟩
  · intro f used l1 l2 c h1 h2 h3 h4
    exact selectBest_eq_first_max f used l1 l2 c h1 h2 h3 h4
  · intro pool chain vibe fuel used current best hl hb
    exact chainLoop_succ_pick hl hb
  · intro pool chain s e current best m i fuel used hb
    exact pathLoop_succ_pick hb

/-- C9 witness: a two-candidate pool tied at score 0 — the selection fold
returns the first candidate in pool order. -/
theorem claim_C9_witness :
    selectBest (fun _ => (0 : ℝ)) ∅
      [⟨1, ⟨120, "", 0⟩, none⟩, ⟨2, ⟨120, "", 0⟩, none⟩] =
      (some ⟨1, ⟨120, "", 0⟩, none⟩, 0) := by
  have h := claim_C9.1 (fun _ => (0 : ℝ)) ∅ [] [⟨2, ⟨120, "", 0⟩, none⟩]
    ⟨1, ⟨120, "", 0⟩, none⟩ (by simp) (by norm_num)
    (fun d _ _ => le_rfl) (fun d hd => absurd hd (List.not_mem_nil d))
  simpa using h

/-- C9 counterexample: with an energy target of 200000 both pool candidates
(energy 0) tie at the maximal total score 0.55 - 20000, yet the chain
builder's selection loop picks nobody — the tied maximum does not beat the
-999 sentinel, so the claim's "first candidate is selected" fails as
stated. -/
theorem claim_C9_counterexample :
    (selectBest (chainCandidateScore ⟨1, ⟨120, "", 0⟩, none⟩ ⟨some 200000⟩) ∅
      [⟨2, ⟨120, "", 0⟩, none⟩, ⟨3, ⟨120, "", 0⟩, none⟩]).1 = none := by
  have hval : ∀ n : Int,
      chainCandidateScore ⟨1, ⟨120, "", 0⟩, none⟩ ⟨some 200000⟩ ⟨n, ⟨120, "", 0⟩, none⟩ =
        0.55 - 20000 := by
    intro n
    unfold chainCandidateScore calculate_transition_score
    dsimp only
    rw [mixability_eval]
    dsimp only
    rw [bpmScore_same (by norm_num), keyScore_unknown_left _ (by decide),
      cosineSim_none_left]
    have habs : |(0 : ℝ) - 200000| = 200000 := by
      rw [abs_of_nonpos (by norm_num)]
      norm_num
    rw [habs]
    norm_num
  have hall : ∀ d ∈ ([⟨2, ⟨120, "", 0⟩, none⟩, ⟨3, ⟨120, "", 0⟩, none⟩] : List Entry),
      d.id ∉ (∅ : Finset Int) →
      chainCandidateScore ⟨1, ⟨120, "", 0⟩, none⟩ ⟨some 200000⟩ d ≤ -999 := by
    intro d hd _
    rcases List.mem_cons.mp hd with rfl | hd'
    · rw [hval 2]; norm_num
    · rcases List.mem_cons.mp hd' with rfl | hd''
      · rw [hval 3]; norm_num
      · exact absurd hd'' (List.not_mem_nil d)
  unfold selectBest
  rw [foldl_bestStep_no_improve _ _ _ none (-999) hall]

/-! ## Helper lemmas: the sorted pool and provenance without side
conditions -/

lemma sortedPool_perm (pool : List Entry) (vibe : Vibe) :
    (sortedPool pool vibe).Perm pool :=
  List.mergeSort_perm pool _

lemma sortedPool_length (pool : List Entry) (vibe : Vibe) :
    (sortedPool pool vibe).length = pool.length :=
  List.length_mergeSort pool

lemma sortedPool_mem {pool : List Entry} {vibe : Vibe} {x : Entry}
    (h : x ∈ sortedPool pool vibe) : x ∈ pool :=
  (sortedPool_perm pool vibe).mem_iff.mp h

lemma chainStartNode_mem (pool : List Entry) (vibe : Vibe) (rand : Nat)
    (h : pool ≠ []) : chainStartNode pool vibe rand ∈ sortedPool pool vibe := by
  unfold chainStartNode
  have hlen : 0 < (sortedPool pool vibe).length := by
    rw [sortedPool_length]
    exact List.length_pos.mpr h
  have hmin : 0 < min 10 (sortedPool pool vibe).length :=
    lt_min (by norm_num) hlen
  have hidx : rand % min 10 (sortedPool pool vibe).length <
      (sortedPool pool vibe).length :=
    lt_of_lt_of_le (Nat.mod_lt _ hmin) (min_le_right _ _)
  rw [List.getD_eq_getElem _ _ hidx]
  exact List.getElem_mem hidx

/-- Provenance for the chain loop without any distinctness hypotheses:
every result entry comes from the initial chain or the pool. -/
lemma chainLoop_subset (pool : List Entry) (vibe : Vibe) :
    ∀ (fuel : Nat) (chain : List Entry) (used : Finset Int),
      ∀ x ∈ (chainLoop pool vibe fuel chain used).1, x ∈ chain ∨ x ∈ pool := by
  intro fuel
  induction fuel with
  | zero =>
    intro chain used x hx
    exact Or.inl (by simpa [chainLoop_zero] using hx)
  | succ fuel ih =>
    intro chain used x hx
    cases hl : chain.getLast? with
    | none =>
      rw [chainLoop_succ_last_none hl] at hx
      exact Or.inl hx
    | some current =>
      cases hb : (selectBest (chainCandidateScore current vibe) used pool).1 with
      | none =>
        rw [chainLoop_succ_stop hl hb] at hx
        exact Or.inl hx
      | some best =>
        rw [chainLoop_succ_pick hl hb] at hx
        obtain ⟨hbp, _, _⟩ := selectBest_some_spec hb
        rcases ih (chain ++ [best]) (insert best.id used) x hx with h | h
        · rcases List.mem_append.mp h with h' | h'
          · exact Or.inl h'
          · simp only [List.mem_singleton] at h'
            exact Or.inr (h' ▸ hbp)
        · exact Or.inr h

/-- Provenance for the path loop without any distinctness hypotheses. -/
lemma pathLoop_subset (pool : List Entry) (s e : Entry) (m : Nat) :
    ∀ (fuel i : Nat) (chain : List Entry) (used : Finset Int) (current : Entry),
      ∀ x ∈ (pathLoop pool s e m i fuel chain used current).1, x ∈ chain ∨ x ∈ pool := by
  intro fuel
  induction fuel with
  | zero =>
    intro i chain used current x hx
    exact Or.inl (by simpa [pathLoop_zero] using hx)
  | succ fuel ih =>
    intro i chain used current x hx
    cases hb : (selectBest (pathCandidateScore current e (pathTargetBpm s e m i)
        (pathTargetEnergy s e m i)) used pool).1 with
    | none =>
      rw [pathLoop_succ_stop hb] at hx
      exact Or.inl hx
    | some best =>
      rw [pathLoop_succ_pick hb] at hx
      obtain ⟨hbp, _, _⟩ := selectBest_some_spec hb
      rcases ih (i + 1) (chain ++ [best]) (insert best.id used) best x hx with h | h
      · rcases List.mem_append.mp h with h' | h'
        · exact Or.inl h'
        · simp only [List.mem_singleton] at h'
          exact Or.inr (h' ▸ hbp)
      · exact Or.inr h

lemma build_path_eval (pool : List Entry) (s e : Entry) (steps : Int) :
    build_path pool s e steps =
      ((pathLoop pool s e ((max 0 (steps - 2)).toNat) 0 ((max 0 (steps - 2)).toNat)
        [s] {s.id, e.id} s).1 ++ [e]).map Entry.track := rfl

/-- C3 (amended): the Path Builder's output length is at most `steps`
whenever `steps >= 2` (and at most `max steps 2` in general — for
`steps < 2` the two endpoints are still emitted, so the output has length
2, exceeding `steps`); the first element is always `start_node`'s track and
the last is always `end_node`'s track (for every `steps`, not only
`steps >= 2`), in particular the end node is still appended when the pool
is exhausted early; the function is total, so no exception is ever
raised. -/
theorem claim_C3 : ∀ (pool : List Entry) (s e : Entry) (steps : Int),
    (2 ≤ steps → (build_path pool s e steps).length ≤ steps.toNat)
    ∧ (build_path pool s e steps).length ≤ max steps.toNat 2
    ∧ (build_path pool s e steps).head? = some s.track
    ∧ (build_path pool s e steps).getLast? = some e.track := by
  intro pool s e steps
  have hloop := pathLoop_length_le pool s e ((max 0 (steps - 2)).toNat)
    ((max 0 (steps - 2)).toNat) 0 [s] {s.id, e.id} s
  simp only [List.length_singleton] at hloop
  have hlen : (build_path pool s e steps).length =
      (pathLoop pool s e ((max 0 (steps - 2)).toNat) 0 ((max 0 (steps - 2)).toNat)
        [s] {s.id, e.id} s).1.length + 1 := by
    rw [build_path_eval]
    simp
  obtain ⟨t, ht⟩ := pathLoop_append pool s e ((max 0 (steps - 2)).toNat)
    ((max 0 (steps - 2)).toNat) 0 [s] {s.id, e.id} s
  refine ⟨?_, ?_, ?_, ?_⟩
  · intro h2
    rw [hlen]
    omega
  · rw [hlen]
    omega
  · rw [build_path_eval, ht]
    simp
  · rw [build_path_eval, List.map_append]
    simp

/-- C3 witness: a bridge with `steps = 2` over an empty pool — length 2,
starting at the start node's track and ending at the end node's track. -/
theorem claim_C3_witness :
    (build_path [] ⟨1, ⟨120, "8A", 0.5⟩, none⟩ ⟨2, ⟨128, "9A", 0.7⟩, none⟩ 2).length
      ≤ (2 : Int).toNat
    ∧ (build_path [] ⟨1, ⟨120, "8A", 0.5⟩, none⟩ ⟨2, ⟨128, "9A", 0.7⟩, none⟩ 2).head?
        = some ⟨120, "8A", 0.5⟩
    ∧ (build_path [] ⟨1, ⟨120, "8A", 0.5⟩, none⟩ ⟨2, ⟨128, "9A", 0.7⟩, none⟩ 2).getLast?
        = some ⟨128, "9A", 0.7⟩ := by
  obtain ⟨h1, _h2, h3, h4⟩ :=
    claim_C3 [] ⟨1, ⟨120, "8A", 0.5⟩, none⟩ ⟨2, ⟨128, "9A", 0.7⟩, none⟩ 2
  exact ⟨h1 (by norm_num), h3, h4⟩

/-- C3 counterexample: with `steps = 1` the Path Builder still returns both
endpoints — output length 2, which is not at most `steps`; so the claim's
unconditional "output length ≤ steps" is false. -/
theorem claim_C3_counterexample :
    (build_path [] ⟨1, ⟨120, "", 0⟩, none⟩ ⟨2, ⟨120, "", 0⟩, none⟩ 1).length = 2
    ∧ ¬((build_path [] ⟨1, ⟨120, "", 0⟩, none⟩ ⟨2, ⟨120, "", 0⟩, none⟩ 1).length
        ≤ (1 : Int).toNat) := by
  have hm : ((max 0 ((1 : Int) - 2)).toNat) = 0 := by norm_num
  have h : (build_path [] ⟨1, ⟨120, "", 0⟩, none⟩ ⟨2, ⟨120, "", 0⟩, none⟩ 1).length = 2 := by
    rw [build_path_eval, hm, pathLoop_zero]
    simp
  exact ⟨h, by rw [h]; norm_num⟩

/-- C10: with empty seeds and a non-empty pool, `build_chain` sorts the
caller's pool list in place (the final pool is the stable descending sort
by start score, a permutation of the original); with at least one seed the
pool is returned untouched, and `build_path` contains no statement mutating
the pool at all; and both builders only move entries around — every entry
of the final pool and of either builder's output chain is (value-equal to)
an entry of the inputs, so no track attribute or vector is mutated. -/
theorem claim_C10 : ∀ (pool seeds : List Entry) (target : Int) (vibe : Vibe) (rand : Nat)
    (s e : Entry) (steps : Int),
    (seeds = [] → pool ≠ [] →
      (build_chain_run pool seeds target vibe rand).pool_after = sortedPool pool vibe
      ∧ (build_chain_run pool seeds target vibe rand).pool_after.Perm pool)
    ∧ (seeds ≠ [] → (build_chain_run pool seeds target vibe rand).pool_after = pool)
    ∧ (∀ x ∈ (build_chain_run pool seeds target vibe rand).pool_after, x ∈ pool)
    ∧ (∀ x ∈ (build_chain_run pool seeds target vibe rand).chain, x ∈ seeds ∨ x ∈ pool)
    ∧ (∀ x ∈ build_path_entries pool s e steps, x = s ∨ x = e ∨ x ∈ pool) := by
  intro pool seeds target vibe rand s e steps
  refine ⟨?_, ?_, ?_, ?_, ?_⟩
  · intro hs hp
    subst hs
    rw [build_chain_run_unseeded pool target vibe rand hp]
    exact ⟨rfl, sortedPool_perm pool vibe⟩
  · intro hs
    rw [build_chain_run_seeded pool seeds target vibe rand hs]
  · by_cases hs : seeds = []
    · subst hs
      by_cases hp : pool = []
      · subst hp
        rw [build_chain_run_empty]
        intro x hx
        simp at hx
      · rw [build_chain_run_unseeded pool target vibe rand hp]
        intro x hx
        exact sortedPool_mem hx
    · rw [build_chain_run_seeded pool seeds target vibe rand hs]
      intro x hx
      exact hx
  · by_cases hs : seeds = []
    · subst hs
      by_cases hp : pool = []
      · subst hp
        rw [build_chain_run_empty]
        intro x hx
        simp at hx
      · rw [build_chain_run_unseeded pool target vibe rand hp]
        intro x hx
        rcases chainLoop_subset (sortedPool pool vibe) vibe _ _ _ x hx with h | h
        · simp only [List.mem_singleton] at h
          rw [h]
          exact Or.inr (sortedPool_mem (chainStartNode_mem pool vibe rand hp))
        · exact Or.inr (sortedPool_mem h)
    · rw [build_chain_run_seeded pool seeds target vibe rand hs]
      intro x hx
      exact chainLoop_subset pool vibe _ _ _ x hx
  · intro x hx
    unfold build_path_entries at hx
    dsimp only at hx
    rcases List.mem_append.mp hx with h | h
    · rcases pathLoop_subset pool s e _ _ _ _ _ _ x h with h' | h'
      · simp only [List.mem_singleton] at h'
        exact Or.inl h'
      · exact Or.inr (Or.inr h')
    · simp only [List.mem_singleton] at h
      exact Or.inr (Or.inl h)

/-- C10 witness: a two-entry pool whose start-score order differs from its
given order, with an energy target of 1 — the unseeded call leaves the pool
sorted (here genuinely reordered to [id 2, id 1]), while a seeded call
leaves the pool untouched. -/
theorem claim_C10_witness :
    (build_chain_run [⟨1, ⟨120, "", 0⟩, none⟩, ⟨2, ⟨120, "", 1⟩, none⟩] [] 1
        ⟨some 1⟩ 0).pool_after
      = sortedPool [⟨1, ⟨120, "", 0⟩, none⟩, ⟨2, ⟨120, "", 1⟩, none⟩] ⟨some 1⟩
    ∧ sortedPool [⟨1, ⟨120, "", 0⟩, none⟩, ⟨2, ⟨120, "", 1⟩, none⟩] ⟨some 1⟩
      = [⟨2, ⟨120, "", 1⟩, none⟩, ⟨1, ⟨120, "", 0⟩, none⟩]
    ∧ (build_chain_run [⟨2, ⟨120, "", 1⟩, none⟩] [⟨1, ⟨120, "", 0⟩, none⟩] 1
        ⟨some 1⟩ 0).pool_after = [⟨2, ⟨120, "", 1⟩, none⟩] := by
  refine ⟨?_, ?_, ?_⟩
  · exact ((claim_C10 [⟨1, ⟨120, "", 0⟩, none⟩, ⟨2, ⟨120, "", 1⟩, none⟩] [] 1 ⟨some 1⟩ 0
      default default 0).1 rfl (by simp)).1
  · have hs1 : start_score ⟨some 1⟩ ⟨1, ⟨120, "", 0⟩, none⟩ = -1 := by
      unfold start_score
      dsimp only
      rw [abs_of_nonpos (by norm_num)]
      norm_num
    have hs2 : start_score ⟨some 1⟩ ⟨2, ⟨120, "", 1⟩, none⟩ = 0 := by
      unfold start_score
      dsimp only
      simp
    unfold sortedPool
    rw [List.mergeSort]
    have hd : (decide (start_score ⟨some 1⟩ (⟨2, ⟨120, "", 1⟩, none⟩ : Entry) ≤
        start_score ⟨some 1⟩ (⟨1, ⟨120, "", 0⟩, none⟩ : Entry))) = false := by
      apply decide_eq_false
      rw [hs1, hs2]
      norm_num
    simp [hd, List.merge, List.mergeSort]
  · exact (claim_C10 [⟨2, ⟨120, "", 1⟩, none⟩] [⟨1, ⟨120, "", 0⟩, none⟩] 1 ⟨some 1⟩ 0
      default default 0).2.1 (by simp)

/-- C1 (amended): both builders return the tracks of their entry chains;
the chain's ids are pairwise distinct provided the supplied seed ids are
themselves distinct (for the Chain Builder) and the two endpoint ids differ
(for the Path Builder) — with duplicated seeds or coinciding endpoint ids
the duplicates are emitted as given; every output entry is a seed/endpoint
or drawn from the pool; and the used-ID set only ever grows during a single
construction call. -/
theorem claim_C1 : ∀ (pool seeds : List Entry) (target : Int) (vibe : Vibe) (rand : Nat)
    (s e : Entry) (steps : Int),
    build_chain pool seeds target vibe rand =
      (build_chain_run pool seeds target vibe rand).chain.map Entry.track
    ∧ build_path pool s e steps = (build_path_entries pool s e steps).map Entry.track
    ∧ ((seeds.map Entry.id).Nodup →
        ((build_chain_run pool seeds target vibe rand).chain.map Entry.id).Nodup
        ∧ ∀ x ∈ (build_chain_run pool seeds target vibe rand).chain,
            x ∈ seeds ∨ x ∈ pool)
    ∧ (s.id ≠ e.id →
        ((build_path_entries pool s e steps).map Entry.id).Nodup
        ∧ ∀ x ∈ build_path_entries pool s e steps, x = s ∨ x = e ∨ x ∈ pool)
    ∧ (∀ (fuel : Nat) (chain : List Entry) (used : Finset Int),
        used ⊆ (chainLoop pool vibe fuel chain used).2)
    ∧ (∀ (m fuel i : Nat) (chain : List Entry) (used : Finset Int) (current : Entry),
        used ⊆ (pathLoop pool s e m i fuel chain used current).2) := by
  intro pool seeds target vibe rand s e steps
  refine ⟨rfl, rfl, ?_, ?_, chainLoop_used_mono pool vibe,
    pathLoop_used_mono pool s e⟩
  · intro hnd
    by_cases hs : seeds = []
    · subst hs
      by_cases hp : pool = []
      · subst hp
        rw [build_chain_run_empty]
        exact ⟨by simp, fun x hx => by simp at hx⟩
      · rw [build_chain_run_unseeded pool target vibe rand hp]
        have h1 : ∀ x ∈ [chainStartNode pool vibe rand],
            x.id ∈ ({(chainStartNode pool vibe rand).id} : Finset Int) := by
          intro x hx
          simp only [List.mem_singleton] at hx
          simp [hx]
        have h2 : (([chainStartNode pool vibe rand]).map Entry.id).Nodup := by simp
        obtain ⟨hn, hprov⟩ := chainLoop_inv (sortedPool pool vibe) vibe
          ((target - 1).toNat) [chainStartNode pool vibe rand]
          {(chainStartNode pool vibe rand).id} h1 h2
        refine ⟨hn, ?_⟩
        intro x hx
        rcases hprov x hx with h | h
        · simp only [List.mem_singleton] at h
          rw [h]
          exact Or.inr (sortedPool_mem (chainStartNode_mem pool vibe rand hp))
        · exact Or.inr (sortedPool_mem h)
    · rw [build_chain_run_seeded pool seeds target vibe rand hs]
      have h1 : ∀ x ∈ seeds, x.id ∈ (seeds.map Entry.id).toFinset := by
        intro x hx
        exact List.mem_toFinset.mpr (List.mem_map_of_mem Entry.id hx)
      obtain ⟨hn, hprov⟩ := chainLoop_inv pool vibe
        ((target - (seeds.length : Int)).toNat) seeds (seeds.map Entry.id).toFinset h1 hnd
      exact ⟨hn, hprov⟩
  · intro hne
    unfold build_path_entries
    dsimp only
    have h1 : ∀ x ∈ [s], x.id ∈ ({s.id, e.id} : Finset Int) := by
      intro x hx
      simp only [List.mem_singleton] at hx
      simp [hx]
    have h2 : (([s]).map Entry.id).Nodup := by simp
    have h3 : ∀ x ∈ [s], x.id ≠ e.id := by
      intro x hx
      simp only [List.mem_singleton] at hx
      rw [hx]
      exact hne
    have he : e.id ∈ ({s.id, e.id} : Finset Int) := by simp
    obtain ⟨hn, hprov, hee⟩ := pathLoop_inv pool s e ((max 0 (steps - 2)).toNat)
      ((max 0 (steps - 2)).toNat) 0 [s] {s.id, e.id} s h1 h2 h3 he
    constructor
    · rw [List.map_append]
      rw [List.nodup_append]
      refine ⟨hn, by simp, ?_⟩
      intro a ha hb
      simp only [List.map_cons, List.map_nil, List.mem_singleton] at hb
      obtain ⟨x, hx, hxa⟩ := List.mem_map.mp ha
      exact hee x hx (hxa.trans hb)
    · intro x hx
      rcases List.mem_append.mp hx with h | h
      · rcases hprov x h with h' | h'
        · simp only [List.mem_singleton] at h'
          exact Or.inl h'
        · exact Or.inr (Or.inr h')
      · simp only [List.mem_singleton] at h
        exact Or.inr (Or.inl h)

/-- C1 witness: a one-seed chain over an empty pool and a two-endpoint path
over an empty pool — distinct output ids, all outputs drawn from the
inputs. -/
theorem claim_C1_witness :
    ((build_chain_run [] [⟨1, ⟨120, "", 0⟩, none⟩] 1 ⟨none⟩ 0).chain.map Entry.id).Nodup
    ∧ ((build_path_entries [] ⟨1, ⟨120, "", 0⟩, none⟩ ⟨2, ⟨128, "", 1⟩, none⟩ 3).map
        Entry.id).Nodup := by
  obtain ⟨_, _, h3, h4, _, _⟩ := claim_C1 [] [⟨1, ⟨120, "", 0⟩, none⟩] 1 ⟨none⟩ 0
    ⟨1, ⟨120, "", 0⟩, none⟩ ⟨2, ⟨128, "", 1⟩, none⟩ 3
  exact ⟨(h3 (by simp)).1, (h4 (by norm_num)).1⟩

/-- C1 counterexample: a seed list containing the same id twice is copied
verbatim into the chain, so the output's ids are not duplicate-free — the
unconditional no-duplicates claim is false. -/
theorem claim_C1_counterexample :
    ¬(((build_chain_run [] [⟨1, ⟨120, "", 0⟩, none⟩, ⟨1, ⟨120, "", 0⟩, none⟩] 2
        ⟨none⟩ 0).chain.map Entry.id).Nodup) := by
  rw [build_chain_run_seeded _ _ _ _ _ (by simp)]
  have hf : ((2 : Int) - (([⟨1, ⟨120, "", 0⟩, none⟩,
      ⟨1, ⟨120, "", 0⟩, none⟩] : List Entry).length : Int)).toNat = 0 := by
    simp
  rw [hf, chainLoop_zero]
  simp

/-- C2 (amended): the Chain Builder's output length is bounded by
`max(target_length, initial length)` where the initial length is the seed
count (or 1 for the forced start node when no seeds but a pool exist, 0
when both are empty) — with more seeds than `target_length` the output
exceeds `target_length`; the output length equals `target_length` whenever
the seed/pool ids are pairwise distinct, every candidate's total score
beats the -999 sentinel, and `target_length` lies between the initial
length and `seed count + pool size`; with an empty pool and empty seeds the
result is the empty list; and with at least one seed and
`target_length ≤ seed count` the result is exactly the seed tracks in their
given order (the loop body never executes; exhaustion returns the partial
chain, the function being total — nothing is raised). -/
theorem claim_C2 : ∀ (pool seeds : List Entry) (target : Int) (vibe : Vibe) (rand : Nat),
    (build_chain pool seeds target vibe rand).length ≤
      max target.toNat
        (if seeds.isEmpty then (if pool.isEmpty then 0 else 1) else seeds.length)
    ∧ (((seeds ++ pool).map Entry.id).Nodup →
        (∀ cur ∈ seeds ++ pool, ∀ c ∈ pool, chainCandidateScore cur vibe c > -999) →
        (if seeds.isEmpty then (if pool.isEmpty then 0 else 1) else seeds.length)
          ≤ target.toNat →
        target.toNat ≤ seeds.length + pool.length →
        (build_chain pool seeds target vibe rand).length = target.toNat)
    ∧ (pool = [] → seeds = [] → build_chain pool seeds target vibe rand = [])
    ∧ (seeds ≠ [] → target ≤ (seeds.length : Int) →
        build_chain pool seeds target vibe rand = seeds.map Entry.track) := by
  intro pool seeds target vibe rand
  have hlen : (build_chain pool seeds target vibe rand).length =
      (build_chain_run pool seeds target vibe rand).chain.length := by
    unfold build_chain
    rw [List.length_map]
  refine ⟨?_, ?_, ?_, ?_⟩
  · rw [hlen]
    by_cases hs : seeds = []
    · subst hs
      by_cases hp : pool = []
      · subst hp
        rw [build_chain_run_empty]
        simp
      · rw [build_chain_run_unseeded pool target vibe rand hp]
        have h := chainLoop_length_le (sortedPool pool vibe) vibe ((target - 1).toNat)
          [chainStartNode pool vibe rand] {(chainStartNode pool vibe rand).id}
        simp only [List.length_singleton] at h
        have hpe : pool.isEmpty = false := by
          cases pool with
          | nil => exact absurd rfl hp
          | cons a l => rfl
        simp only [List.isEmpty_nil, if_true, hpe, Bool.false_eq_true, if_false]
        omega
    · rw [build_chain_run_seeded pool seeds target vibe rand hs]
      have h := chainLoop_length_le pool vibe ((target - (seeds.length : Int)).toNat)
        seeds (seeds.map Entry.id).toFinset
      have hse : seeds.isEmpty = false := by
        cases seeds with
        | nil => exact absurd rfl hs
        | cons a l => rfl
      simp only [hse, Bool.false_eq_true, if_false]
      omega
  · intro hnd hsc hinit hcap
    rw [hlen]
    by_cases hs : seeds = []
    · subst hs
      by_cases hp : pool = []
      · subst hp
        rw [build_chain_run_empty]
        simp only [List.length_nil] at hcap
        show ([] : List Entry).length = target.toNat
        simp only [List.length_nil]
        omega
      · rw [build_chain_run_unseeded pool target vibe rand hp]
        have hpe : pool.isEmpty = false := by
          cases pool with
          | nil => exact absurd rfl hp
          | cons a l => rfl
        have hinit1 : 1 ≤ target.toNat := by
          simpa [hpe] using hinit
        simp only [List.nil_append] at hnd hsc
        simp only [List.length_nil] at hcap
        have hperm : ((sortedPool pool vibe).map Entry.id).Perm (pool.map Entry.id) :=
          (sortedPool_perm pool vibe).map Entry.id
        have hPn : ((sortedPool pool vibe).map Entry.id).Nodup :=
          hperm.symm.nodup hnd
        have hexact := chainLoop_length_exact (sortedPool pool vibe) vibe pool ∅
          (fun x hx => sortedPool_mem hx)
          (fun cur hcur c hc => hsc cur hcur c (sortedPool_mem hc))
          hPn (fun d _ => Finset.not_mem_empty d.id)
          ((target - 1).toNat) [chainStartNode pool vibe rand]
          {(chainStartNode pool vibe rand).id}
          (by simp) (by simp) (by simp) (Finset.empty_subset _)
          (by
            intro x hx
            simp only [List.mem_singleton] at hx
            rw [hx]
            exact sortedPool_mem (chainStartNode_mem pool vibe rand hp))
          (by
            simp only [List.length_singleton, Finset.card_empty, sortedPool_length]
            omega)
        rw [hexact]
        simp only [List.length_singleton]
        omega
    · rw [build_chain_run_seeded pool seeds target vibe rand hs]
      have hse : seeds.isEmpty = false := by
        cases seeds with
        | nil => exact absurd rfl hs
        | cons a l => rfl
      have hinit1 : seeds.length ≤ target.toNat := by
        simpa [hse] using hinit
      rw [List.map_append] at hnd
      obtain ⟨n1, n2, disj⟩ := List.nodup_append.mp hnd
      have hcard : ((seeds.map Entry.id).toFinset).card = seeds.length := by
        rw [List.toFinset_card_of_nodup n1, List.length_map]
      have hexact := chainLoop_length_exact pool vibe (seeds ++ pool)
        ((seeds.map Entry.id).toFinset)
        (fun x hx => List.mem_append_right seeds hx)
        (fun cur hcur c hc => hsc cur hcur c hc)
        n2
        (fun d hd hmem => disj (List.mem_toFinset.mp hmem)
          (List.mem_map_of_mem Entry.id hd))
        ((target - (seeds.length : Int)).toNat) seeds ((seeds.map Entry.id).toFinset)
        hs rfl n1 (subset_refl _)
        (fun x hx => List.mem_append_left pool hx)
        (by omega)
      rw [hexact]
      omega
  · intro hp hs
    subst hp
    subst hs
    unfold build_chain
    rw [build_chain_run_empty]
    rfl
  · intro hs htgt
    unfold build_chain
    rw [build_chain_run_seeded pool seeds target vibe rand hs]
    have hf : ((target - (seeds.length : Int)).toNat) = 0 := by omega
    rw [hf, chainLoop_zero]

/-- C2 witness: one seed plus one pool candidate with target 2 reaches
exactly length 2; empty pool and seeds give the empty list; target below
the seed count returns exactly the seeds. -/
theorem claim_C2_witness :
    (build_chain [⟨2, ⟨120, "", 0⟩, none⟩] [⟨1, ⟨120, "", 0⟩, none⟩] 2 ⟨none⟩ 0).length
      = (2 : Int).toNat
    ∧ build_chain [] [] 5 ⟨none⟩ 0 = []
    ∧ build_chain [] [⟨1, ⟨120, "", 0⟩, none⟩, ⟨3, ⟨121, "", 0⟩, none⟩] 1 ⟨none⟩ 0
        = [⟨120, "", 0⟩, ⟨121, "", 0⟩] := by
  refine ⟨?_, ?_, ?_⟩
  · refine (claim_C2 [⟨2, ⟨120, "", 0⟩, none⟩] [⟨1, ⟨120, "", 0⟩, none⟩] 2 ⟨none⟩ 0).2.1
      (by simp) ?_ (by simp) (by simp)
    intro cur _ c _
    rw [chainCandidateScore_of_no_energy _ _ _ rfl]
    have := transition_score_nonneg cur c
    linarith
  · exact (claim_C2 [] [] 5 ⟨none⟩ 0).2.2.1 rfl rfl
  · have h := (claim_C2 [] [⟨1, ⟨120, "", 0⟩, none⟩, ⟨3, ⟨121, "", 0⟩, none⟩] 1
      ⟨none⟩ 0).2.2.2 (by simp) (by simp)
    rw [h]
    simp

/-- C2 counterexample: with two seeds and `target_length = 1` the builder
returns both seed tracks — output length 2, exceeding `target_length`, and
`pool_size + seed_count = 2 ≥ 1` yet the length differs from
`target_length`; the claim's unconditional bound and equality are false. -/
theorem claim_C2_counterexample :
    (build_chain [] [⟨1, ⟨120, "", 0⟩, none⟩, ⟨2, ⟨120, "", 0⟩, none⟩] 1 ⟨none⟩ 0).length = 2
    ∧ ¬((build_chain [] [⟨1, ⟨120, "", 0⟩, none⟩, ⟨2, ⟨120, "", 0⟩, none⟩] 1
        ⟨none⟩ 0).length ≤ (1 : Int).toNat) := by
  have h : build_chain [] [⟨1, ⟨120, "", 0⟩, none⟩, ⟨2, ⟨120, "", 0⟩, none⟩] 1 ⟨none⟩ 0
      = [⟨120, "", 0⟩, ⟨120, "", 0⟩] := by
    unfold build_chain
    rw [build_chain_run_seeded _ _ _ _ _ (by simp)]
    have hf : ((1 : Int) - (([⟨1, ⟨120, "", 0⟩, none⟩,
        ⟨2, ⟨120, "", 0⟩, none⟩] : List Entry).length : Int)).toNat = 0 := by
      simp
    rw [hf, chainLoop_zero]
    simp
  rw [h]
  norm_num

end DJaly
